import Mathlib

/-!
Verification of the Study Schedule Generation Engine of the Aptora repository
(CS222-UIUC/fa25-team061-Aptora).

The repository snapshot contains the frontend (TypeScript/React) and the
documentation of the backend, but the backend engine sources
(`backend/app/schedule_generator.py` and friends) are not part of the
snapshot; only their callers (`/schedules/generate` in the Schedule page),
their response shape (`ScheduleResponse`), and the specification are.  The
engine is therefore modelled here from the specification, component by
component (PriorityScorer, AvailabilityIndex, SlotAllocator,
ClusterOptimizer, ScheduleAssembler), over exact rational time arithmetic.
Timestamps are rationals counting hours from an epoch fixed at a Monday
00:00, so hour `168*w + 24*d` starts day `d` (Monday-first) of week `w`.
-/

namespace Aptora

/-- Modelled from the spec: difficulty is one of {easy, medium, hard}
(spec §3, "Closed enumerations instead of loose string comparisons"). -/
inductive Difficulty : Type
  | easy : Difficulty
  | medium : Difficulty
  | hard : Difficulty
deriving DecidableEq, Repr

/-- Modelled from the spec: explicit priority is one of {low, medium, high}. -/
inductive TaskPriority : Type
  | low : TaskPriority
  | medium : TaskPriority
  | high : TaskPriority
deriving DecidableEq, Repr

/-- Modelled from the spec §3: an assignment as the engine sees it
(id, due date, difficulty, explicit priority, required hours, completion flag). -/
structure Assignment : Type where
  id : Nat
  due_date : ℚ
  difficulty : Difficulty
  priority : TaskPriority
  required_hours : ℚ
  is_completed : Bool
deriving DecidableEq, Repr

/-- Modelled from the spec §3: a recurring weekly availability slot;
`day_of_week ∈ 0..6`, `start_time`/`end_time` are hours of the day. -/
structure AvailabilitySlot : Type where
  day_of_week : Nat
  start_time : ℚ
  end_time : ℚ
deriving DecidableEq, Repr

/-- Modelled from the spec §3: the planning horizon `[start, stop)`. -/
structure Horizon : Type where
  start : ℚ
  stop : ℚ
deriving DecidableEq, Repr

/-- Modelled from the spec §6: the fixed configuration constants. -/
structure Config : Type where
  minSessionLength : ℚ
  maxSessionLength : ℚ
deriving DecidableEq, Repr

/-- Modelled from the spec §3/§6: a study session produced by the engine,
`{assignmentId, startTime, endTime}`. -/
structure Session : Type where
  assignment_id : Nat
  start_time : ℚ
  end_time : ℚ
deriving DecidableEq, Repr

/-- Duration of a session in hours. -/
def Session.duration (s : Session) : ℚ := s.end_time - s.start_time

/-- A concrete free interval of the availability index. -/
structure Interval : Type where
  lo : ℚ
  hi : ℚ
deriving DecidableEq, Repr

/-- Two intervals are disjoint (as half-open spans of time). -/
def Interval.disj (i j : Interval) : Prop := i.hi ≤ j.lo ∨ j.hi ≤ i.lo

/-- Two sessions do not overlap in time. -/
def sessDisj (s t : Session) : Prop :=
  s.end_time ≤ t.start_time ∨ t.end_time ≤ s.start_time

/-- Session `s` ends no later than session `t` starts. -/
def sessBefore (s t : Session) : Prop := s.end_time ≤ t.start_time

instance : DecidableRel sessBefore := fun s t => by
  unfold sessBefore
  infer_instance

/-- A session avoids a free interval entirely. -/
def sessAvoid (s : Session) (i : Interval) : Prop :=
  s.end_time ≤ i.lo ∨ i.hi ≤ s.start_time

/-- Invariant of the availability index: every free interval is nonempty
and the free intervals are pairwise disjoint. -/
def FreeInv (fs : List Interval) : Prop :=
  (∀ i ∈ fs, i.lo < i.hi) ∧ fs.Pairwise Interval.disj

/-! ### PriorityScorer (spec §4.1), modelled from the spec -/

/-- Modelled from the spec §4.1: difficulty weight table, hard > medium > easy. -/
def difficultyWeight : Difficulty → ℚ
  | Difficulty.easy => 1
  | Difficulty.medium => 13 / 10
  | Difficulty.hard => 8 / 5

/-- Modelled from the spec §4.1: priority weight table, high > medium > low. -/
def priorityWeight : TaskPriority → ℚ
  | TaskPriority.low => 1
  | TaskPriority.medium => 6 / 5
  | TaskPriority.high => 3 / 2

/-- Modelled from the spec §4.1: urgency is monotonically decreasing in
days-until-due, with the maximum value for due-today/overdue assignments. -/
def urgency (now due : ℚ) : ℚ :=
  if due ≤ now then 1 else 1 / (1 + (due - now) / 24)

/-- Modelled from the spec §4.1: score = urgency × difficulty weight ×
priority weight. -/
def priorityScore (now : ℚ) (a : Assignment) : ℚ :=
  urgency now a.due_date * difficultyWeight a.difficulty * priorityWeight a.priority

/-- The sorting relation of the PriorityScorer: descending score, ties broken
by earlier due date, then lower assignment id (spec §4.1). -/
def scoreLE (now : ℚ) (a b : Assignment) : Prop :=
  priorityScore now b < priorityScore now a ∨
    (priorityScore now a = priorityScore now b ∧
      (a.due_date < b.due_date ∨ (a.due_date = b.due_date ∧ a.id ≤ b.id)))

instance (now : ℚ) : DecidableRel (scoreLE now) := fun a b => by
  unfold scoreLE
  infer_instance

instance (now : ℚ) : IsTotal Assignment (scoreLE now) := by
  constructor
  intro a b
  unfold scoreLE
  rcases lt_trichotomy (priorityScore now a) (priorityScore now b) with h | h | h
  · exact Or.inr (Or.inl h)
  · rcases lt_trichotomy a.due_date b.due_date with h2 | h2 | h2
    · exact Or.inl (Or.inr ⟨h, Or.inl h2⟩)
    · rcases Nat.le_total a.id b.id with h3 | h3
      · exact Or.inl (Or.inr ⟨h, Or.inr ⟨h2, h3⟩⟩)
      · exact Or.inr (Or.inr ⟨h.symm, Or.inr ⟨h2.symm, h3⟩⟩)
    · exact Or.inr (Or.inr ⟨h.symm, Or.inl h2⟩)
  · exact Or.inl (Or.inl h)

instance (now : ℚ) : IsTrans Assignment (scoreLE now) := by
  constructor
  intro a b c hab hbc
  unfold scoreLE at hab hbc ⊢
  rcases hab with hab | ⟨hab, hab2⟩
  · rcases hbc with hbc | ⟨hbc, _⟩
    · exact Or.inl (lt_trans hbc hab)
    · exact Or.inl (hbc ▸ hab)
  · rcases hbc with hbc | ⟨hbc, hbc2⟩
    · exact Or.inl (hab ▸ hbc)
    · refine Or.inr ⟨hab.trans hbc, ?_⟩
      rcases hab2 with hab2 | ⟨hab2, hab3⟩
      · rcases hbc2 with hbc2 | ⟨hbc2, _⟩
        · exact Or.inl (lt_trans hab2 hbc2)
        · exact Or.inl (hbc2 ▸ hab2)
      · rcases hbc2 with hbc2 | ⟨hbc2, hbc3⟩
        · exact Or.inl (hab2 ▸ hbc2)
        · exact Or.inr ⟨hab2.trans hbc2, le_trans hab3 hbc3⟩

/-- Modelled from the spec §4.1: return the non-completed assignments sorted
descending by score with deterministic tie-breaking. -/
def priorityScorer (now : ℚ) (assignments : List Assignment) : List Assignment :=
  List.insertionSort (scoreLE now) (assignments.filter (fun a => !a.is_completed))

/-! ### AvailabilityIndex (spec §4.2), modelled from the spec -/

/-- Clip an interval to the window `[lo, hi]`. -/
def clipI (lo hi : ℚ) (i : Interval) : Interval := ⟨max i.lo lo, min i.hi hi⟩

/-- Modelled from the spec §4.2: the concrete occurrence of a weekly slot in
week `w`, with the epoch at a Monday 00:00 so that `day_of_week = 0` is a
Monday (the frontend's `dayNames` table is Monday-first). -/
def slotInterval (w : Nat) (s : AvailabilitySlot) : Interval :=
  ⟨168 * w + 24 * s.day_of_week + s.start_time,
   168 * w + 24 * s.day_of_week + s.end_time⟩

/-- Number of weekly repetitions needed to cover the horizon. -/
def numWeeks (h : Horizon) : Nat := Int.toNat ⌈h.stop / 168⌉ + 1

/-- Modelled from the spec §4.2: expand the recurring weekly slots into
concrete horizon-clipped intervals, dropping empty ones. -/
def expandSlots (h : Horizon) (slots : List AvailabilitySlot) : List Interval :=
  ((((List.range (numWeeks h)).map (fun w => slots.map (slotInterval w))).flatten).map
    (clipI h.start h.stop)).filter (fun i => decide (i.lo < i.hi))

/-- Sorting relation for intervals: by left endpoint. -/
def intervalLE (i j : Interval) : Prop := i.lo ≤ j.lo

instance : DecidableRel intervalLE := fun i j => by
  unfold intervalLE
  infer_instance

instance : IsTotal Interval intervalLE := ⟨fun i j => le_total i.lo j.lo⟩

instance : IsTrans Interval intervalLE := ⟨fun _ _ _ h1 h2 => le_trans h1 h2⟩

/-- Modelled from the spec §4.2: merge adjacent/overlapping intervals of a
list sorted by left endpoint. -/
def mergeSorted : List Interval → List Interval
  | [] => []
  | [i] => [i]
  | i :: j :: rest =>
    if j.lo ≤ i.hi then mergeSorted (⟨i.lo, max i.hi j.hi⟩ :: rest)
    else i :: mergeSorted (j :: rest)
termination_by l => l.length

/-- Modelled from the spec §4.2: build the availability index once per run:
expand, sort, and merge adjacent/overlapping intervals. -/
def buildIndex (h : Horizon) (slots : List AvailabilitySlot) : List Interval :=
  mergeSorted (List.insertionSort intervalLE (expandSlots h slots))

/-- Modelled from the spec §4.2: `nextAvailable(duration, notBefore, notAfter)`
returns the first free interval whose clip to the window can host `duration`
hours, together with that clip, or none. -/
def nextAvailable (fs : List Interval) (dur notBefore notAfter : ℚ) :
    Option (Interval × Interval) :=
  match fs with
  | [] => none
  | i :: rest =>
    if dur ≤ (clipI notBefore notAfter i).hi - (clipI notBefore notAfter i).lo then
      some (i, clipI notBefore notAfter i)
    else nextAvailable rest dur notBefore notAfter

/-- The zero, one, or two nonempty fragments left of interval `i` after the
sub-range `[a, b]` is removed from it. -/
def splitFrags (i : Interval) (a b : ℚ) : List Interval :=
  (if i.lo < a then [⟨i.lo, a⟩] else []) ++ (if b < i.hi then [⟨b, i.hi⟩] else [])

/-- Modelled from the spec §4.2: `consume(interval)` removes the sub-range
`[a, b]` from the (first occurrence of the) containing interval `i`,
splitting it into zero, one, or two remaining fragments. -/
def consumeFrom (fs : List Interval) (i : Interval) (a b : ℚ) : List Interval :=
  match fs with
  | [] => []
  | j :: rest =>
    if j = i then splitFrags i a b ++ rest
    else j :: consumeFrom rest i a b

/-! ### SlotAllocator (spec §4.3), modelled from the spec -/

/-- Fuel bound for the per-assignment allocation loop. -/
def sessionFuel (maxLen required : ℚ) : Nat := Int.toNat ⌈required / maxLen⌉ + 1

/-- Modelled from the spec §4.3: the per-assignment allocation loop.  While
hours remain, query the index for the next interval able to host
`min(remaining, maxSessionLength)` hours between `notBefore` and the due
date `notAfter`; allocate a session of exactly that length at the start of
the clipped interval, consume it, and recurse.  Returns the sessions, the
remaining free list, and the assignment's uncovered hours. -/
def allocOne (maxLen notBefore notAfter : ℚ) (aid : Nat) :
    Nat → ℚ → List Interval → List Session × List Interval × ℚ
  | 0, remaining, fs => ([], fs, remaining)
  | fuel + 1, remaining, fs =>
    if remaining ≤ 0 then ([], fs, remaining)
    else
      match nextAvailable fs (min remaining maxLen) notBefore notAfter with
      | none => ([], fs, remaining)
      | some (i, c) =>
        let dur := min remaining maxLen
        let rec1 := allocOne maxLen notBefore notAfter aid fuel (remaining - dur)
          (consumeFrom fs i c.lo (c.lo + dur))
        (⟨aid, c.lo, c.lo + dur⟩ :: rec1.1, rec1.2)

/-- Per-assignment coverage outcome of the allocator. -/
structure CoverageEntry : Type where
  aid : Nat
  required : ℚ
  remaining : ℚ
deriving DecidableEq, Repr

/-- An assignment participates in the run unless its required hours are
non-positive or its due date lies before the horizon start (spec §4.5/§7). -/
def eligible (h : Horizon) (a : Assignment) : Prop :=
  ¬(a.required_hours ≤ 0 ∨ a.due_date < h.start)

instance (h : Horizon) (a : Assignment) : Decidable (eligible h a) := by
  unfold eligible
  infer_instance

/-- Modelled from the spec §4.3: process the priority-ordered assignments
greedily, skipping ineligible ones, threading the free list through.
Returns the draft sessions, the coverage outcomes, and the final free list. -/
def allocAll (cfg : Config) (h : Horizon) :
    List Assignment → List Interval →
      List Session × List CoverageEntry × List Interval
  | [], fs => ([], [], fs)
  | a :: rest, fs =>
    if a.required_hours ≤ 0 ∨ a.due_date < h.start then allocAll cfg h rest fs
    else
      let r1 := allocOne cfg.maxSessionLength h.start a.due_date a.id
        (sessionFuel cfg.maxSessionLength a.required_hours) a.required_hours fs
      let r2 := allocAll cfg h rest r1.2.1
      (r1.1 ++ r2.1, ⟨a.id, a.required_hours, r1.2.2⟩ :: r2.2.1, r2.2.2)

/-! ### ClusterOptimizer (spec §4.4), modelled from the spec -/

/-- Chronological order on sessions (by start time). -/
def chronLE (s t : Session) : Prop := s.start_time ≤ t.start_time

instance : DecidableRel chronLE := fun s t => by
  unfold chronLE
  infer_instance

instance : IsTotal Session chronLE := ⟨fun s t => le_total s.start_time t.start_time⟩

instance : IsTrans Session chronLE := ⟨fun _ _ _ h1 h2 => le_trans h1 h2⟩

/-- Sort the draft sessions chronologically. -/
def sortSessions (l : List Session) : List Session :=
  List.insertionSort chronLE l

/-- Modelled from the spec §4.4: walk the chronological list, merging the
held session with the next one exactly when they belong to the same
assignment, are strictly adjacent (prior end = next start), and the combined
duration does not exceed `maxLen`. -/
def clusterGo (maxLen : ℚ) : Session → List Session → List Session
  | cur, [] => [cur]
  | cur, s :: rest =>
    if cur.assignment_id = s.assignment_id ∧ cur.end_time = s.start_time ∧
        s.end_time - cur.start_time ≤ maxLen then
      clusterGo maxLen ⟨cur.assignment_id, cur.start_time, s.end_time⟩ rest
    else cur :: clusterGo maxLen s rest

/-- Modelled from the spec §4.4: the ClusterOptimizer pass. -/
def clusterOptimize (maxLen : ℚ) : List Session → List Session
  | [] => []
  | s :: rest => clusterGo maxLen s rest

/-! ### ScheduleAssembler (spec §4.5), modelled from the spec -/

/-- Modelled from the spec §6 output contract and the frontend
`ScheduleResponse`: the ordered session list plus the summary. -/
structure ScheduleResult : Type where
  study_sessions : List Session
  total_hours_scheduled : ℚ
  covered_ids : List Nat
  uncovered : List (Nat × ℚ)
deriving DecidableEq, Repr

/-- Modelled from the spec §4.5: run the whole pipeline and assemble the
result object. -/
def assemble (cfg : Config) (h : Horizon) (slots : List AvailabilitySlot)
    (assignments : List Assignment) : ScheduleResult :=
  let ordered := priorityScorer h.start assignments
  let index := buildIndex h slots
  let allocated := allocAll cfg h ordered index
  let merged := clusterOptimize cfg.maxSessionLength (sortSessions allocated.1)
  { study_sessions := merged
    total_hours_scheduled := (merged.map Session.duration).sum
    covered_ids := (allocated.2.1.filter (fun c => decide (c.remaining = 0))).map
      CoverageEntry.aid
    uncovered := (allocated.2.1.filter (fun c => decide (0 < c.remaining))).map
      (fun c => (c.aid, c.remaining)) }

/-- Modelled from the spec §7: the engine rejects `end ≤ start` as the one
caller-visible error; every other input degrades gracefully. -/
def generateSchedule (cfg : Config) (h : Horizon) (slots : List AvailabilitySlot)
    (assignments : List Assignment) : Except String ScheduleResult :=
  if h.stop ≤ h.start then Except.error ("invalid horizon: end <= start")
  else Except.ok (assemble cfg h slots assignments)

/-! ### Frontend availability interface (from `src/frontend`) -/

/-- The weekday labels of the availability page, in the order the `Select`
presents them; element `d` is the label stored as `day_of_week = d`
(`dayNames` in `frontend/src/pages/Availability.tsx`). -/
def dayNames : List String :=
  ["Monday", "Tuesday", "Wednesday", "Thursday", "Friday", "Saturday", "Sunday"]

/-- The availability slots of `frontend/src/utils/mockData.ts`
(`mockAvailabilitySlots`): day 1 09:00-12:00, day 3 14:00-18:00,
day 5 10:00-16:00, annotated there as Tuesday, Thursday, Saturday. -/
def mockAvailabilitySlots : List AvailabilitySlot :=
  [⟨1, 9, 12⟩, ⟨3, 14, 18⟩, ⟨5, 10, 16⟩]

/-- Day-of-week index of a timestamp (hours from the Monday-00:00 epoch). -/
def dayIndexOf (t : ℚ) : Int := ⌊t / 24⌋ % 7

/-- Sum of the durations of the sessions allocated to assignment `aid`. -/
def sumDurFor (aid : Nat) (l : List Session) : ℚ :=
  ((l.filter (fun s => s.assignment_id == aid)).map Session.duration).sum

/-- A point in time `t` is covered for assignment `aid` by the session list. -/
def covers (l : List Session) (aid : Nat) (t : ℚ) : Prop :=
  ∃ s ∈ l, s.assignment_id = aid ∧ s.start_time ≤ t ∧ t < s.end_time

/-! ### Concrete sample inputs used to instantiate the theorems -/

/-- A sample configuration: one-hour minimum, two-hour maximum sessions. -/
def cfgW : Config := ⟨1, 2⟩

/-- A sample one-week horizon starting at the epoch. -/
def hW : Horizon := ⟨0, 168⟩

/-- A sample weekly availability: Monday 09:00-11:00. -/
def slotsW : List AvailabilitySlot := [⟨0, 9, 11⟩]

/-- A sample assignment list: one pending 4-hour assignment due at hour 48. -/
def asW : List Assignment :=
  [⟨1, 48, Difficulty.medium, TaskPriority.high, 4, false⟩]

/-! ## Lemmas about the availability index primitives -/

theorem disj_mono {i j y : Interval} (hlo : i.lo ≤ j.lo) (hhi : j.hi ≤ i.hi)
    (h : Interval.disj i y) : Interval.disj j y := by
  rcases h with h | h
  · exact Or.inl (le_trans hhi h)
  · exact Or.inr (le_trans h hlo)

theorem nextAvailable_spec {fs : List Interval} {dur nb na : ℚ} {i c : Interval}
    (h : nextAvailable fs dur nb na = some (i, c)) :
    i ∈ fs ∧ c = clipI nb na i ∧ dur ≤ c.hi - c.lo := by
  induction fs with
  | nil => simp [nextAvailable] at h
  | cons j rest ih =>
    rw [nextAvailable] at h
    split at h
    · simp only [Option.some.injEq, Prod.mk.injEq] at h
      obtain ⟨rfl, rfl⟩ := h
      exact ⟨List.mem_cons_self _ _, rfl, by assumption⟩
    · obtain ⟨h1, h2, h3⟩ := ih h
      exact ⟨List.mem_cons_of_mem _ h1, h2, h3⟩

theorem nextAvailable_facts {fs : List Interval} {dur nb na : ℚ} {i c : Interval}
    (h : nextAvailable fs dur nb na = some (i, c)) :
    i ∈ fs ∧ i.lo ≤ c.lo ∧ nb ≤ c.lo ∧ c.hi ≤ i.hi ∧ c.hi ≤ na ∧ dur ≤ c.hi - c.lo := by
  obtain ⟨hin, rfl, hd⟩ := nextAvailable_spec h
  exact ⟨hin, le_max_left _ _, le_max_right _ _, min_le_left _ _, min_le_right _ _, hd⟩

theorem mem_splitFrags {i : Interval} {a b : ℚ} {j : Interval}
    (hj : j ∈ splitFrags i a b) :
    (j = ⟨i.lo, a⟩ ∧ i.lo < a) ∨ (j = ⟨b, i.hi⟩ ∧ b < i.hi) := by
  unfold splitFrags at hj
  rcases List.mem_append.mp hj with h | h
  · split at h
    · simp at h
      exact Or.inl ⟨h, by assumption⟩
    · simp at h
  · split at h
    · simp at h
      exact Or.inr ⟨h, by assumption⟩
    · simp at h

theorem splitFrags_sub {i : Interval} {a b : ℚ} (h1 : i.lo ≤ a) (h2 : a ≤ b)
    (h3 : b ≤ i.hi) : ∀ j ∈ splitFrags i a b, i.lo ≤ j.lo ∧ j.hi ≤ i.hi := by
  intro j hj
  rcases mem_splitFrags hj with ⟨rfl, _⟩ | ⟨rfl, _⟩
  · exact ⟨le_refl _, le_trans h2 h3⟩
  · exact ⟨le_trans h1 h2, le_refl _⟩

theorem splitFrags_avoid {i : Interval} {a b : ℚ} :
    ∀ j ∈ splitFrags i a b, j.hi ≤ a ∨ b ≤ j.lo := by
  intro j hj
  rcases mem_splitFrags hj with ⟨rfl, _⟩ | ⟨rfl, _⟩
  · exact Or.inl (le_refl _)
  · exact Or.inr (le_refl _)

theorem splitFrags_pos {i : Interval} {a b : ℚ} :
    ∀ j ∈ splitFrags i a b, j.lo < j.hi := by
  intro j hj
  rcases mem_splitFrags hj with ⟨rfl, h⟩ | ⟨rfl, h⟩ <;> exact h

theorem splitFrags_pairwise {i : Interval} {a b : ℚ} (h2 : a ≤ b) :
    (splitFrags i a b).Pairwise Interval.disj := by
  unfold splitFrags
  split <;> split <;> simp [Interval.disj, h2]

theorem consumeFrom_mem {fs : List Interval} {i : Interval} {a b : ℚ} {j : Interval}
    (hj : j ∈ consumeFrom fs i a b) : j ∈ fs ∨ j ∈ splitFrags i a b := by
  induction fs with
  | nil => simp [consumeFrom] at hj
  | cons k rest ih =>
    rw [consumeFrom] at hj
    split at hj
    · rcases List.mem_append.mp hj with h | h
      · exact Or.inr h
      · exact Or.inl (List.mem_cons_of_mem _ h)
    · rcases List.mem_cons.mp hj with rfl | h
      · exact Or.inl (List.mem_cons_self _ _)
      · rcases ih h with h' | h'
        · exact Or.inl (List.mem_cons_of_mem _ h')
        · exact Or.inr h'

theorem consumeFrom_refine {fs : List Interval} {i : Interval} {a b : ℚ}
    (hmem : i ∈ fs) (h1 : i.lo ≤ a) (h2 : a ≤ b) (h3 : b ≤ i.hi) :
    ∀ j ∈ consumeFrom fs i a b, ∃ k ∈ fs, k.lo ≤ j.lo ∧ j.hi ≤ k.hi := by
  intro j hj
  rcases consumeFrom_mem hj with h | h
  · exact ⟨j, h, le_refl _, le_refl _⟩
  · exact ⟨i, hmem, (splitFrags_sub h1 h2 h3 j h).1, (splitFrags_sub h1 h2 h3 j h).2⟩

theorem consumeFrom_pos {fs : List Interval} {i : Interval} {a b : ℚ}
    (hpos : ∀ j ∈ fs, j.lo < j.hi) :
    ∀ j ∈ consumeFrom fs i a b, j.lo < j.hi := by
  intro j hj
  rcases consumeFrom_mem hj with h | h
  · exact hpos j h
  · exact splitFrags_pos j h

theorem consumeFrom_avoid {fs : List Interval} {i : Interval} {a b : ℚ}
    (hpos : ∀ j ∈ fs, j.lo < j.hi) (hpair : fs.Pairwise Interval.disj)
    (hmem : i ∈ fs) (h1 : i.lo ≤ a) (h3 : b ≤ i.hi) :
    ∀ j ∈ consumeFrom fs i a b, j.hi ≤ a ∨ b ≤ j.lo := by
  induction fs with
  | nil => intro j hj; simp [consumeFrom] at hj
  | cons k rest ih =>
    intro j hj
    rw [consumeFrom] at hj
    obtain ⟨hk, hp⟩ := List.pairwise_cons.mp hpair
    split at hj
    · rename_i hki
      subst hki
      rcases List.mem_append.mp hj with h | h
      · exact splitFrags_avoid j h
      · rcases hk j h with hd | hd
        · exact Or.inr (le_trans h3 hd)
        · exact Or.inl (le_trans hd h1)
    · rename_i hki
      rcases List.mem_cons.mp hj with rfl | h
      · rcases List.mem_cons.mp hmem with rfl | hmem'
        · exact absurd rfl hki
        · rcases hk i hmem' with hd | hd
          · exact Or.inl (le_trans hd h1)
          · exact Or.inr (le_trans h3 hd)
      · rcases List.mem_cons.mp hmem with rfl | hmem'
        · exact absurd rfl hki
        · exact ih (fun x hx => hpos x (List.mem_cons_of_mem _ hx)) hp hmem' j h

theorem consumeFrom_pairwise {fs : List Interval} {i : Interval} {a b : ℚ}
    (hpos : ∀ j ∈ fs, j.lo < j.hi) (hpair : fs.Pairwise Interval.disj)
    (hmem : i ∈ fs) (h1 : i.lo ≤ a) (h2 : a ≤ b) (h3 : b ≤ i.hi) :
    (consumeFrom fs i a b).Pairwise Interval.disj := by
  induction fs with
  | nil => simp [consumeFrom]
  | cons k rest ih =>
    rw [consumeFrom]
    obtain ⟨hk, hp⟩ := List.pairwise_cons.mp hpair
    split
    · rename_i hki
      subst hki
      refine List.pairwise_append.mpr ⟨splitFrags_pairwise h2, hp, ?_⟩
      intro x hx y hy
      exact disj_mono (splitFrags_sub h1 h2 h3 x hx).1 (splitFrags_sub h1 h2 h3 x hx).2
        (hk y hy)
    · rename_i hki
      have hmem' : i ∈ rest := by
        rcases List.mem_cons.mp hmem with rfl | h
        · exact absurd rfl hki
        · exact h
      refine List.pairwise_cons.mpr ⟨?_, ih (fun x hx => hpos x (List.mem_cons_of_mem _ hx))
        hp hmem'⟩
      intro y hy
      rcases consumeFrom_mem hy with h | h
      · exact hk y h
      · have hsub := splitFrags_sub h1 h2 h3 y h
        rcases hk i hmem' with hd | hd
        · exact Or.inl (le_trans hd hsub.1)
        · exact Or.inr (le_trans hsub.2 hd)

/-! ## Lemmas about the per-assignment allocation loop -/

theorem allocOne_nonpos {maxLen nb na : ℚ} {aid : Nat} {fuel : Nat} {remaining : ℚ}
    {fs : List Interval} (h : remaining ≤ 0) :
    allocOne maxLen nb na aid fuel remaining fs = ([], fs, remaining) := by
  cases fuel <;> simp [allocOne, h]

theorem allocOne_bounds {maxLen nb na : ℚ} {aid : Nat} (hmax : 0 < maxLen) :
    ∀ (fuel : Nat) (remaining : ℚ) (fs : List Interval),
      ∀ s ∈ (allocOne maxLen nb na aid fuel remaining fs).1,
        s.assignment_id = aid ∧ nb ≤ s.start_time ∧ s.end_time ≤ na ∧
          0 < s.duration ∧ s.duration ≤ maxLen ∧
          ∃ k ∈ fs, k.lo ≤ s.start_time ∧ s.end_time ≤ k.hi := by
  intro fuel
  induction fuel with
  | zero => intro remaining fs s hs; simp [allocOne] at hs
  | succ fuel ih =>
    intro remaining fs s hs
    rw [allocOne] at hs
    by_cases hrem : remaining ≤ 0
    · simp [hrem] at hs
    · rw [if_neg hrem] at hs
      rcases hna : nextAvailable fs (min remaining maxLen) nb na with _ | ⟨i, c⟩
      · rw [hna] at hs
        simp at hs
      · rw [hna] at hs
        simp only [List.mem_cons] at hs
        obtain ⟨hin, hilo, hnb, hihi, hna2, hd⟩ := nextAvailable_facts hna
        have hdur : 0 < min remaining maxLen := lt_min (not_le.mp hrem) hmax
        rcases hs with rfl | hs'
        · refine ⟨rfl, hnb, ?_, ?_, ?_, i, hin, hilo, ?_⟩
          · show c.lo + min remaining maxLen ≤ na
            linarith
          · show (0 : ℚ) < c.lo + min remaining maxLen - c.lo
            linarith
          · show c.lo + min remaining maxLen - c.lo ≤ maxLen
            have := min_le_right remaining maxLen
            linarith
          · show c.lo + min remaining maxLen ≤ i.hi
            linarith
        · have hrec := ih (remaining - min remaining maxLen)
            (consumeFrom fs i c.lo (c.lo + min remaining maxLen)) s hs'
          obtain ⟨h1, h2, h3, h4, h5, k, hk, hk1, hk2⟩ := hrec
          refine ⟨h1, h2, h3, h4, h5, ?_⟩
          obtain ⟨k', hk', hk'1, hk'2⟩ := consumeFrom_refine hin hilo
            (by linarith) (by linarith) k hk
          exact ⟨k', hk', le_trans hk'1 hk1, le_trans hk2 hk'2⟩

theorem allocOne_master {maxLen nb na : ℚ} {aid : Nat} (hmax : 0 < maxLen) :
    ∀ (fuel : Nat) (remaining : ℚ) (fs : List Interval), FreeInv fs →
      FreeInv (allocOne maxLen nb na aid fuel remaining fs).2.1 ∧
      (∀ j ∈ (allocOne maxLen nb na aid fuel remaining fs).2.1,
        ∃ k ∈ fs, k.lo ≤ j.lo ∧ j.hi ≤ k.hi) ∧
      (∀ s ∈ (allocOne maxLen nb na aid fuel remaining fs).1,
        ∀ j ∈ (allocOne maxLen nb na aid fuel remaining fs).2.1, sessAvoid s j) ∧
      (allocOne maxLen nb na aid fuel remaining fs).1.Pairwise sessDisj := by
  intro fuel
  induction fuel with
  | zero =>
    intro remaining fs hinv
    refine ⟨hinv, fun j hj => ⟨j, hj, le_refl _, le_refl _⟩, ?_, ?_⟩ <;>
      simp [allocOne]
  | succ fuel ih =>
    intro remaining fs hinv
    rw [allocOne]
    by_cases hrem : remaining ≤ 0
    · rw [if_pos hrem]
      exact ⟨hinv, fun j hj => ⟨j, hj, le_refl _, le_refl _⟩, by simp, by simp⟩
    · rw [if_neg hrem]
      rcases hna : nextAvailable fs (min remaining maxLen) nb na with _ | ⟨i, c⟩
      · exact ⟨hinv, fun j hj => ⟨j, hj, le_refl _, le_refl _⟩, by simp, by simp⟩
      · obtain ⟨hin, hilo, hnb, hihi, hna2, hd⟩ := nextAvailable_facts hna
        have hdur : 0 < min remaining maxLen := lt_min (not_le.mp hrem) hmax
        have hab : c.lo ≤ c.lo + min remaining maxLen := by linarith
        have hbi : c.lo + min remaining maxLen ≤ i.hi := by linarith
        have hcons_pos := consumeFrom_pos (i := i) (a := c.lo)
          (b := c.lo + min remaining maxLen) hinv.1
        have hcons_pair := consumeFrom_pairwise hinv.1 hinv.2 hin hilo hab hbi
        have hcons_inv : FreeInv (consumeFrom fs i c.lo (c.lo + min remaining maxLen)) :=
          ⟨hcons_pos, hcons_pair⟩
        have hcons_avoid := consumeFrom_avoid (a := c.lo)
          (b := c.lo + min remaining maxLen) hinv.1 hinv.2 hin hilo hbi
        have hcons_ref := consumeFrom_refine (a := c.lo)
          (b := c.lo + min remaining maxLen) hin hilo hab hbi
        obtain ⟨ih1, ih2, ih3, ih4⟩ := ih (remaining - min remaining maxLen)
          (consumeFrom fs i c.lo (c.lo + min remaining maxLen)) hcons_inv
        have hrecsub := @allocOne_bounds maxLen nb na aid hmax fuel
          (remaining - min remaining maxLen)
          (consumeFrom fs i c.lo (c.lo + min remaining maxLen))
        refine ⟨ih1, ?_, ?_, ?_⟩
        · intro j hj
          obtain ⟨k, hk, hk1, hk2⟩ := ih2 j hj
          obtain ⟨k', hk', hk'1, hk'2⟩ := hcons_ref k hk
          exact ⟨k', hk', le_trans hk'1 hk1, le_trans hk2 hk'2⟩
        · intro s hs j hj
          simp only [List.mem_cons] at hs
          rcases hs with rfl | hs'
          · obtain ⟨k, hk, hk1, hk2⟩ := ih2 j hj
            rcases hcons_avoid k hk with h | h
            · exact Or.inr (le_trans hk2 h)
            · exact Or.inl (le_trans h hk1)
          · exact ih3 s hs' j hj
        · simp only []
          refine List.Pairwise.cons ?_ ih4
          intro t ht
          obtain ⟨_, _, _, _, _, k, hk, hk1, hk2⟩ := hrecsub t ht
          rcases hcons_avoid k hk with h | h
          · exact Or.inr (le_trans hk2 h)
          · exact Or.inl (le_trans h hk1)

theorem allocOne_sum {maxLen nb na : ℚ} {aid : Nat} :
    ∀ (fuel : Nat) (remaining : ℚ) (fs : List Interval), 0 ≤ remaining →
      (((allocOne maxLen nb na aid fuel remaining fs).1.map Session.duration).sum +
        (allocOne maxLen nb na aid fuel remaining fs).2.2 = remaining) ∧
      0 ≤ (allocOne maxLen nb na aid fuel remaining fs).2.2 := by
  intro fuel
  induction fuel with
  | zero => intro remaining fs h0; simp [allocOne, h0]
  | succ fuel ih =>
    intro remaining fs h0
    rw [allocOne]
    by_cases hrem : remaining ≤ 0
    · rw [if_pos hrem]
      simp [h0]
    · rw [if_neg hrem]
      rcases hna : nextAvailable fs (min remaining maxLen) nb na with _ | ⟨i, c⟩
      · simp [h0]
      · have hdle : min remaining maxLen ≤ remaining := min_le_left _ _
        obtain ⟨ihs, ihn⟩ := ih (remaining - min remaining maxLen)
          (consumeFrom fs i c.lo (c.lo + min remaining maxLen)) (by linarith)
        refine ⟨?_, ihn⟩
        simp only [List.map_cons, List.sum_cons, Session.duration]
        linarith

theorem allocOne_fragment {maxLen nb na : ℚ} {aid : Nat} {minLen : ℚ}
    (hmin : 0 < minLen) (hmm : minLen ≤ maxLen) :
    ∀ (fuel : Nat) (remaining : ℚ) (fs : List Interval),
      (∀ s ∈ (allocOne maxLen nb na aid fuel remaining fs).1, minLen ≤ s.duration) ∨
      (∃ ss0 frag, (allocOne maxLen nb na aid fuel remaining fs).1 = ss0 ++ [frag] ∧
        (∀ s ∈ ss0, minLen ≤ s.duration) ∧ frag.duration < minLen ∧
        (allocOne maxLen nb na aid fuel remaining fs).2.2 = 0 ∧
        frag.duration = remaining - (ss0.map Session.duration).sum) := by
  intro fuel
  induction fuel with
  | zero => intro remaining fs; left; simp [allocOne]
  | succ fuel ih =>
    intro remaining fs
    rw [allocOne]
    by_cases hrem : remaining ≤ 0
    · rw [if_pos hrem]
      left
      simp
    · rw [if_neg hrem]
      rcases hna : nextAvailable fs (min remaining maxLen) nb na with _ | ⟨i, c⟩
      · left
        simp
      · have hdpos : 0 < min remaining maxLen := lt_min (not_le.mp hrem)
          (lt_of_lt_of_le hmin hmm)
        have hdd : Session.duration ⟨aid, c.lo, c.lo + min remaining maxLen⟩ =
            min remaining maxLen := by
          simp [Session.duration]
        by_cases hshort : min remaining maxLen < minLen
        · -- final fragment: the whole of `remaining` is allocated and the loop ends
          right
          have hre : min remaining maxLen = remaining := by
            rcases min_cases remaining maxLen with ⟨h1, _⟩ | ⟨h1, h2⟩
            · exact h1
            · rw [h1] at hshort
              linarith
          have hzero : remaining - min remaining maxLen ≤ 0 := by rw [hre]; linarith
          refine ⟨[], ⟨aid, c.lo, c.lo + min remaining maxLen⟩, ?_, by simp, ?_, ?_, ?_⟩
          · simp only [allocOne_nonpos hzero]
            simp
          · rw [hdd]
            exact hshort
          · simp only [allocOne_nonpos hzero]
            rw [hre]
            simp
          · rw [hdd, hre]
            simp
        · -- regular session of length `min remaining maxLen ≥ minLen`
          rcases ih (remaining - min remaining maxLen)
            (consumeFrom fs i c.lo (c.lo + min remaining maxLen)) with hall | hfrag
          · left
            intro s hs
            simp only [List.mem_cons] at hs
            rcases hs with rfl | hs'
            · rw [hdd]
              exact not_lt.mp hshort
            · exact hall s hs'
          · right
            obtain ⟨ss0, frag, heq, hss0, hfd, hrem0, hfe⟩ := hfrag
            refine ⟨⟨aid, c.lo, c.lo + min remaining maxLen⟩ :: ss0, frag, ?_, ?_, hfd,
              hrem0, ?_⟩
            · simp only [List.cons_append]
              exact congrArg (List.cons _) heq
            · intro s hs
              simp only [List.mem_cons] at hs
              rcases hs with rfl | hs'
              · rw [hdd]
                exact not_lt.mp hshort
              · exact hss0 s hs'
            · simp only [List.map_cons, List.sum_cons, hdd, hfe]
              ring

theorem allocOne_frag_uniq {maxLen nb na : ℚ} {aid : Nat} {minLen : ℚ}
    (hmin : 0 < minLen) (hmm : minLen ≤ maxLen) (fuel : Nat) (remaining : ℚ)
    (fs : List Interval) :
    ∀ s ∈ (allocOne maxLen nb na aid fuel remaining fs).1,
      ∀ t ∈ (allocOne maxLen nb na aid fuel remaining fs).1,
        s.duration < minLen → t.duration < minLen → s = t := by
  intro s hs t ht hsd htd
  rcases allocOne_fragment hmin hmm fuel remaining fs with hall | ⟨ss0, frag, heq, hss0, _⟩
  · exact absurd (hall s hs) (not_le.mpr hsd)
  · rw [heq] at hs ht
    have hsf : s = frag := by
      rcases List.mem_append.mp hs with h | h
      · exact absurd (hss0 s h) (not_le.mpr hsd)
      · simpa using h
    have htf : t = frag := by
      rcases List.mem_append.mp ht with h | h
      · exact absurd (hss0 t h) (not_le.mpr htd)
      · simpa using h
    rw [hsf, htf]

/-! ## Lemmas about the allocator driver -/

theorem sessAvoid_mono {s : Session} {j k : Interval} (h : sessAvoid s k)
    (h1 : k.lo ≤ j.lo) (h2 : j.hi ≤ k.hi) : sessAvoid s j := by
  rcases h with h | h
  · exact Or.inl (le_trans h h1)
  · exact Or.inr (le_trans h2 h)

theorem allocAll_master {cfg : Config} {h : Horizon} (hmax : 0 < cfg.maxSessionLength) :
    ∀ (l : List Assignment) (fs : List Interval), FreeInv fs →
      FreeInv (allocAll cfg h l fs).2.2 ∧
      (∀ j ∈ (allocAll cfg h l fs).2.2, ∃ k ∈ fs, k.lo ≤ j.lo ∧ j.hi ≤ k.hi) ∧
      (∀ s ∈ (allocAll cfg h l fs).1, ∀ j ∈ (allocAll cfg h l fs).2.2, sessAvoid s j) ∧
      (allocAll cfg h l fs).1.Pairwise sessDisj ∧
      (∀ s ∈ (allocAll cfg h l fs).1,
        ∃ k ∈ fs, k.lo ≤ s.start_time ∧ s.end_time ≤ k.hi) := by
  intro l
  induction l with
  | nil =>
    intro fs hinv
    exact ⟨hinv, fun j hj => ⟨j, hj, le_refl _, le_refl _⟩, by simp [allocAll],
      by simp [allocAll], by simp [allocAll]⟩
  | cons a rest ih =>
    intro fs hinv
    rw [allocAll]
    split
    · exact ih fs hinv
    · simp only []
      obtain ⟨m1, m2, m3, m4⟩ := allocOne_master hmax
        (sessionFuel cfg.maxSessionLength a.required_hours) a.required_hours fs hinv
      have bounds1 := @allocOne_bounds cfg.maxSessionLength h.start a.due_date a.id hmax
        (sessionFuel cfg.maxSessionLength a.required_hours) a.required_hours fs
      obtain ⟨i1, i2, i3, i4, i5⟩ := ih _ m1
      refine ⟨i1, ?_, ?_, ?_, ?_⟩
      · intro j hj
        obtain ⟨k, hk, hk1, hk2⟩ := i2 j hj
        obtain ⟨k', hk', hk'1, hk'2⟩ := m2 k hk
        exact ⟨k', hk', le_trans hk'1 hk1, le_trans hk2 hk'2⟩
      · intro s hs j hj
        rcases List.mem_append.mp hs with h' | h'
        · obtain ⟨k, hk, hk1, hk2⟩ := i2 j hj
          exact sessAvoid_mono (m3 s h' k hk) hk1 hk2
        · exact i3 s h' j hj
      · refine List.pairwise_append.mpr ⟨m4, i4, ?_⟩
        intro s hs t ht
        obtain ⟨k, hk, hk1, hk2⟩ := i5 t ht
        rcases m3 s hs k hk with h' | h'
        · exact Or.inl (le_trans h' hk1)
        · exact Or.inr (le_trans hk2 h')
      · intro s hs
        rcases List.mem_append.mp hs with h' | h'
        · obtain ⟨_, _, _, _, _, k, hk, hk1, hk2⟩ := bounds1 s h'
          exact ⟨k, hk, hk1, hk2⟩
        · obtain ⟨k, hk, hk1, hk2⟩ := i5 s h'
          obtain ⟨k', hk', hk'1, hk'2⟩ := m2 k hk
          exact ⟨k', hk', le_trans hk'1 hk1, le_trans hk2 hk'2⟩

theorem allocAll_bounds {cfg : Config} {h : Horizon} (hmax : 0 < cfg.maxSessionLength) :
    ∀ (l : List Assignment) (fs : List Interval),
      ∀ s ∈ (allocAll cfg h l fs).1,
        ∃ a ∈ l, eligible h a ∧ s.assignment_id = a.id ∧ h.start ≤ s.start_time ∧
          s.end_time ≤ a.due_date ∧ 0 < s.duration ∧
          s.duration ≤ cfg.maxSessionLength := by
  intro l
  induction l with
  | nil => intro fs s hs; simp [allocAll] at hs
  | cons a rest ih =>
    intro fs s hs
    rw [allocAll] at hs
    split at hs
    · obtain ⟨a', ha', rest'⟩ := ih fs s hs
      exact ⟨a', List.mem_cons_of_mem _ ha', rest'⟩
    · rename_i hel
      simp only [] at hs
      rcases List.mem_append.mp hs with h' | h'
      · obtain ⟨h1, h2, h3, h4, h5, _⟩ := @allocOne_bounds cfg.maxSessionLength h.start
          a.due_date a.id hmax (sessionFuel cfg.maxSessionLength a.required_hours)
          a.required_hours fs s h'
        exact ⟨a, List.mem_cons_self _ _, hel, h1, h2, h3, h4, h5⟩
      · obtain ⟨a', ha', rest'⟩ := ih _ s h'
        exact ⟨a', List.mem_cons_of_mem _ ha', rest'⟩

theorem allocAll_cov {cfg : Config} {h : Horizon} :
    ∀ (l : List Assignment) (fs : List Interval),
      ∀ e ∈ (allocAll cfg h l fs).2.1,
        ∃ a ∈ l, eligible h a ∧ e.aid = a.id ∧ e.required = a.required_hours ∧
          0 ≤ e.remaining := by
  intro l
  induction l with
  | nil => intro fs e he; simp [allocAll] at he
  | cons a rest ih =>
    intro fs e he
    rw [allocAll] at he
    split at he
    · obtain ⟨a', ha', rest'⟩ := ih fs e he
      exact ⟨a', List.mem_cons_of_mem _ ha', rest'⟩
    · rename_i hel
      simp only [List.mem_cons] at he
      rcases he with rfl | he'
      · have hreq : (0 : ℚ) ≤ a.required_hours := by
          rcases not_or.mp hel with ⟨h1, _⟩
          linarith [not_le.mp h1]
        have := (@allocOne_sum cfg.maxSessionLength h.start a.due_date a.id
          (sessionFuel cfg.maxSessionLength a.required_hours)
          a.required_hours fs hreq).2
        exact ⟨a, List.mem_cons_self _ _, hel, rfl, rfl, this⟩
      · obtain ⟨a', ha', rest'⟩ := ih _ e he'
        exact ⟨a', List.mem_cons_of_mem _ ha', rest'⟩

theorem sumDurFor_cons (aid : Nat) (x : Session) (l : List Session) :
    sumDurFor aid (x :: l) =
      (if x.assignment_id = aid then x.duration else 0) + sumDurFor aid l := by
  unfold sumDurFor
  rw [List.filter_cons]
  by_cases hx : x.assignment_id = aid
  · simp [hx]
  · simp [hx]

theorem sumDurFor_append (aid : Nat) (x y : List Session) :
    sumDurFor aid (x ++ y) = sumDurFor aid x + sumDurFor aid y := by
  simp [sumDurFor, List.filter_append]

theorem sumDurFor_all {aid : Nat} {l : List Session}
    (h : ∀ s ∈ l, s.assignment_id = aid) :
    sumDurFor aid l = (l.map Session.duration).sum := by
  unfold sumDurFor
  congr 1
  congr 1
  apply List.filter_eq_self.mpr
  intro s hs
  simp [h s hs]

theorem sumDurFor_none {aid : Nat} {l : List Session}
    (h : ∀ s ∈ l, s.assignment_id ≠ aid) :
    sumDurFor aid l = 0 := by
  unfold sumDurFor
  have : l.filter (fun s => s.assignment_id == aid) = [] := by
    apply List.filter_eq_nil_iff.mpr
    intro s hs
    simp [h s hs]
  rw [this]
  simp

theorem allocAll_cov_sum {cfg : Config} {h : Horizon} (hmax : 0 < cfg.maxSessionLength) :
    ∀ (l : List Assignment) (fs : List Interval), (l.map Assignment.id).Nodup →
      ∀ e ∈ (allocAll cfg h l fs).2.1,
        sumDurFor e.aid (allocAll cfg h l fs).1 + e.remaining = e.required := by
  intro l
  induction l with
  | nil => intro fs _ e he; simp [allocAll] at he
  | cons a rest ih =>
    intro fs hn e he
    have hn' : (rest.map Assignment.id).Nodup := by
      simp only [List.map_cons, List.nodup_cons] at hn
      exact hn.2
    have hnotin : a.id ∉ rest.map Assignment.id := by
      simp only [List.map_cons, List.nodup_cons] at hn
      exact hn.1
    rw [allocAll] at he ⊢
    by_cases hel : a.required_hours ≤ 0 ∨ a.due_date < h.start
    · rw [if_pos hel] at he ⊢
      exact ih fs hn' e he
    · rw [if_neg hel] at he ⊢
      simp only [List.mem_cons] at he
      simp only []
      have hblock := @allocOne_bounds cfg.maxSessionLength h.start a.due_date a.id hmax
        (sessionFuel cfg.maxSessionLength a.required_hours) a.required_hours fs
      rcases he with rfl | he'
      · simp only []
        rw [sumDurFor_append]
        have hreq : (0 : ℚ) ≤ a.required_hours := by
          rcases not_or.mp hel with ⟨h1, _⟩
          linarith [not_le.mp h1]
        have hsum := (@allocOne_sum cfg.maxSessionLength h.start a.due_date a.id
          (sessionFuel cfg.maxSessionLength a.required_hours)
          a.required_hours fs hreq).1
        have hall : sumDurFor a.id
            (allocOne cfg.maxSessionLength h.start a.due_date a.id
              (sessionFuel cfg.maxSessionLength a.required_hours) a.required_hours fs).1 =
            ((allocOne cfg.maxSessionLength h.start a.due_date a.id
              (sessionFuel cfg.maxSessionLength a.required_hours)
              a.required_hours fs).1.map Session.duration).sum :=
          sumDurFor_all (fun s hs => (hblock s hs).1)
        have hnone : sumDurFor a.id
            (allocAll cfg h rest (allocOne cfg.maxSessionLength h.start a.due_date a.id
              (sessionFuel cfg.maxSessionLength a.required_hours)
              a.required_hours fs).2.1).1 = 0 := by
          apply sumDurFor_none
          intro s hs
          obtain ⟨a', ha', _, hid, _⟩ := allocAll_bounds hmax rest _ s hs
          rw [hid]
          intro hcontra
          exact hnotin (hcontra ▸ List.mem_map_of_mem Assignment.id ha')
        rw [hall, hnone]
        linarith
      · obtain ⟨a', ha', _, haid, _, _⟩ := allocAll_cov rest _ e he'
        rw [sumDurFor_append]
        have hnone : sumDurFor e.aid
            (allocOne cfg.maxSessionLength h.start a.due_date a.id
              (sessionFuel cfg.maxSessionLength a.required_hours)
              a.required_hours fs).1 = 0 := by
          apply sumDurFor_none
          intro s hs
          rw [(hblock s hs).1, haid]
          intro hcontra
          exact hnotin (hcontra ▸ List.mem_map_of_mem Assignment.id ha')
        rw [hnone]
        have := ih _ hn' e he'
        linarith

theorem allocAll_cov_complete {cfg : Config} {h : Horizon} :
    ∀ (l : List Assignment) (fs : List Interval), ∀ a ∈ l, eligible h a →
      ∃ e ∈ (allocAll cfg h l fs).2.1, e.aid = a.id ∧ e.required = a.required_hours := by
  intro l
  induction l with
  | nil => intro fs a ha; simp at ha
  | cons b rest ih =>
    intro fs a ha hel
    rw [allocAll]
    split
    · rename_i hb
      rcases List.mem_cons.mp ha with rfl | ha'
      · exact absurd hb hel
      · exact ih fs a ha' hel
    · rcases List.mem_cons.mp ha with rfl | ha'
      · exact ⟨_, List.mem_cons_self _ _, rfl, rfl⟩
      · obtain ⟨e, he, hn⟩ := ih _ a ha' hel
        exact ⟨e, List.mem_cons_of_mem _ he, hn⟩

theorem allocAll_skip {cfg : Config} {h : Horizon} (hmax : 0 < cfg.maxSessionLength)
    (l : List Assignment) (fs : List Interval) (hn : (l.map Assignment.id).Nodup) :
    ∀ a ∈ l, ¬eligible h a →
      (∀ s ∈ (allocAll cfg h l fs).1, s.assignment_id ≠ a.id) ∧
      (∀ e ∈ (allocAll cfg h l fs).2.1, e.aid ≠ a.id) := by
  intro a ha hnel
  constructor
  · intro s hs hcontra
    obtain ⟨a', ha', hel, hid, _⟩ := allocAll_bounds hmax l fs s hs
    have : a' = a := List.inj_on_of_nodup_map hn ha' ha (by rw [← hid, hcontra])
    exact hnel (this ▸ hel)
  · intro e he hcontra
    obtain ⟨a', ha', hel, hid, _⟩ := allocAll_cov l fs e he
    have : a' = a := List.inj_on_of_nodup_map hn ha' ha (by rw [← hid, hcontra])
    exact hnel (this ▸ hel)

theorem allocAll_frag {cfg : Config} {h : Horizon} (hmin : 0 < cfg.minSessionLength)
    (hmm : cfg.minSessionLength ≤ cfg.maxSessionLength) :
    ∀ (l : List Assignment) (fs : List Interval), (l.map Assignment.id).Nodup →
      ∀ s ∈ (allocAll cfg h l fs).1, s.duration < cfg.minSessionLength →
        ∃ a ∈ l, eligible h a ∧ a.id = s.assignment_id ∧
          sumDurFor a.id (allocAll cfg h l fs).1 = a.required_hours := by
  have hmax : 0 < cfg.maxSessionLength := lt_of_lt_of_le hmin hmm
  intro l
  induction l with
  | nil => intro fs _ s hs; simp [allocAll] at hs
  | cons a rest ih =>
    intro fs hn s hs hsd
    have hn' : (rest.map Assignment.id).Nodup := by
      simp only [List.map_cons, List.nodup_cons] at hn
      exact hn.2
    have hnotin : a.id ∉ rest.map Assignment.id := by
      simp only [List.map_cons, List.nodup_cons] at hn
      exact hn.1
    rw [allocAll] at hs ⊢
    by_cases hel : a.required_hours ≤ 0 ∨ a.due_date < h.start
    · rw [if_pos hel] at hs ⊢
      obtain ⟨a', ha', h1, h2, h3⟩ := ih fs hn' s hs hsd
      exact ⟨a', List.mem_cons_of_mem _ ha', h1, h2, h3⟩
    · rw [if_neg hel] at hs ⊢
      simp only [] at hs ⊢
      have hblock := @allocOne_bounds cfg.maxSessionLength h.start a.due_date a.id hmax
        (sessionFuel cfg.maxSessionLength a.required_hours) a.required_hours fs
      have hreq : (0 : ℚ) ≤ a.required_hours := by
        rcases not_or.mp hel with ⟨h1, _⟩
        linarith [not_le.mp h1]
      rcases List.mem_append.mp hs with h' | h'
      · -- the short session sits in the block of `a`: the loop ended with rem = 0
        refine ⟨a, List.mem_cons_self _ _, hel, ((hblock s h').1).symm, ?_⟩
        rcases @allocOne_fragment cfg.maxSessionLength h.start a.due_date a.id
          cfg.minSessionLength hmin hmm (sessionFuel cfg.maxSessionLength a.required_hours)
          a.required_hours fs with hall | ⟨ss0, frag, heq, hss0, _, hrem0, _⟩
        · exact absurd (hall s h') (not_le.mpr hsd)
        · have hsum := (@allocOne_sum cfg.maxSessionLength h.start a.due_date a.id
            (sessionFuel cfg.maxSessionLength a.required_hours) a.required_hours fs hreq).1
          rw [sumDurFor_append]
          have hall2 : sumDurFor a.id
              (allocOne cfg.maxSessionLength h.start a.due_date a.id
                (sessionFuel cfg.maxSessionLength a.required_hours)
                a.required_hours fs).1 =
              ((allocOne cfg.maxSessionLength h.start a.due_date a.id
                (sessionFuel cfg.maxSessionLength a.required_hours)
                a.required_hours fs).1.map Session.duration).sum :=
            sumDurFor_all (fun u hu => (hblock u hu).1)
          have hnone : sumDurFor a.id
              (allocAll cfg h rest (allocOne cfg.maxSessionLength h.start a.due_date a.id
                (sessionFuel cfg.maxSessionLength a.required_hours)
                a.required_hours fs).2.1).1 = 0 := by
            apply sumDurFor_none
            intro u hu
            obtain ⟨a', ha', _, hid, _⟩ := allocAll_bounds hmax rest _ u hu
            rw [hid]
            intro hcontra
            exact hnotin (hcontra ▸ List.mem_map_of_mem Assignment.id ha')
          rw [hall2, hnone, hrem0] at *
          linarith
      · obtain ⟨a', ha', h1, h2, h3⟩ := ih _ hn' s h' hsd
        refine ⟨a', List.mem_cons_of_mem _ ha', h1, h2, ?_⟩
        rw [sumDurFor_append]
        have hnone : sumDurFor a'.id
            (allocOne cfg.maxSessionLength h.start a.due_date a.id
              (sessionFuel cfg.maxSessionLength a.required_hours)
              a.required_hours fs).1 = 0 := by
          apply sumDurFor_none
          intro u hu
          rw [(hblock u hu).1]
          intro hcontra
          exact hnotin (hcontra ▸ List.mem_map_of_mem Assignment.id ha')
        rw [hnone, h3]
        ring

theorem allocAll_frag_uniq {cfg : Config} {h : Horizon} (hmin : 0 < cfg.minSessionLength)
    (hmm : cfg.minSessionLength ≤ cfg.maxSessionLength) :
    ∀ (l : List Assignment) (fs : List Interval), (l.map Assignment.id).Nodup →
      ∀ s ∈ (allocAll cfg h l fs).1, ∀ t ∈ (allocAll cfg h l fs).1,
        s.assignment_id = t.assignment_id →
        s.duration < cfg.minSessionLength → t.duration < cfg.minSessionLength →
        s = t := by
  have hmax : 0 < cfg.maxSessionLength := lt_of_lt_of_le hmin hmm
  intro l
  induction l with
  | nil => intro fs _ s hs; simp [allocAll] at hs
  | cons a rest ih =>
    intro fs hn s hs t ht hid hsd htd
    have hn' : (rest.map Assignment.id).Nodup := by
      simp only [List.map_cons, List.nodup_cons] at hn
      exact hn.2
    have hnotin : a.id ∉ rest.map Assignment.id := by
      simp only [List.map_cons, List.nodup_cons] at hn
      exact hn.1
    rw [allocAll] at hs ht
    by_cases hel : a.required_hours ≤ 0 ∨ a.due_date < h.start
    · rw [if_pos hel] at hs ht
      exact ih fs hn' s hs t ht hid hsd htd
    · rw [if_neg hel] at hs ht
      simp only [] at hs ht
      have hblock := @allocOne_bounds cfg.maxSessionLength h.start a.due_date a.id hmax
        (sessionFuel cfg.maxSessionLength a.required_hours) a.required_hours fs
      have hcross : ∀ u ∈ (allocAll cfg h rest (allocOne cfg.maxSessionLength h.start
          a.due_date a.id (sessionFuel cfg.maxSessionLength a.required_hours)
          a.required_hours fs).2.1).1, u.assignment_id ≠ a.id := by
        intro u hu
        obtain ⟨a', ha', _, hid', _⟩ := allocAll_bounds hmax rest _ u hu
        rw [hid']
        intro hcontra
        exact hnotin (hcontra ▸ List.mem_map_of_mem Assignment.id ha')
      rcases List.mem_append.mp hs with h1 | h1 <;> rcases List.mem_append.mp ht with h2 | h2
      · exact allocOne_frag_uniq hmin hmm _ _ _ s h1 t h2 hsd htd
      · exfalso
        apply hcross t h2
        rw [← hid]
        exact (hblock s h1).1
      · exfalso
        apply hcross s h1
        rw [hid]
        exact (hblock t h2).1
      · exact ih _ hn' s h1 t h2 hid hsd htd

/-! ## Chronological sorting of the draft -/

theorem sortSessions_perm (l : List Session) : (sortSessions l).Perm l :=
  List.perm_insertionSort chronLE l

theorem sortSessions_sorted (l : List Session) : (sortSessions l).Sorted chronLE :=
  List.sorted_insertionSort chronLE l

theorem sessDisj_symm : Symmetric sessDisj := by
  intro s t h
  rcases h with h | h
  · exact Or.inr h
  · exact Or.inl h

theorem sorted_disj_before {l : List Session} (hs : l.Sorted chronLE)
    (hd : l.Pairwise sessDisj) (hpos : ∀ s ∈ l, 0 < s.duration) :
    l.Pairwise sessBefore := by
  induction l with
  | nil => exact List.Pairwise.nil
  | cons a t ih =>
    obtain ⟨hs1, hs2⟩ := List.pairwise_cons.mp hs
    obtain ⟨hd1, hd2⟩ := List.pairwise_cons.mp hd
    refine List.pairwise_cons.mpr ⟨?_, ih hs2 hd2
      (fun s hsm => hpos s (List.mem_cons_of_mem _ hsm))⟩
    intro b hb
    rcases hd1 b hb with h | h
    · exact h
    · exfalso
      have h1 : a.start_time ≤ b.start_time := hs1 b hb
      have h2 : 0 < b.duration := hpos b (List.mem_cons_of_mem _ hb)
      unfold Session.duration at h2
      linarith

/-! ## Lemmas about the ClusterOptimizer -/

theorem covers_cons {x : Session} {L : List Session} {aid : Nat} {t : ℚ} :
    covers (x :: L) aid t ↔
      (x.assignment_id = aid ∧ x.start_time ≤ t ∧ t < x.end_time) ∨ covers L aid t := by
  unfold covers
  constructor
  · rintro ⟨u, hu, h⟩
    rcases List.mem_cons.mp hu with rfl | hu'
    · exact Or.inl h
    · exact Or.inr ⟨u, hu', h⟩
  · rintro (h | ⟨u, hu, h⟩)
    · exact ⟨x, List.mem_cons_self _ _, h⟩
    · exact ⟨u, List.mem_cons_of_mem _ hu, h⟩

theorem clusterGo_starts {q : ℚ} :
    ∀ (l : List Session) (cur : Session), ∀ u ∈ clusterGo q cur l,
      ∃ w ∈ cur :: l, u.assignment_id = w.assignment_id ∧
        u.start_time = w.start_time := by
  intro l
  induction l with
  | nil =>
    intro cur u hu
    rw [clusterGo] at hu
    simp only [List.mem_singleton] at hu
    exact ⟨cur, List.mem_cons_self _ _, by rw [hu], by rw [hu]⟩
  | cons s rest ih =>
    intro cur u hu
    rw [clusterGo] at hu
    split at hu
    · obtain ⟨w, hw, h1, h2⟩ := ih _ u hu
      rcases List.mem_cons.mp hw with rfl | hw'
      · exact ⟨cur, List.mem_cons_self _ _, h1, h2⟩
      · exact ⟨w, List.mem_cons_of_mem _ (List.mem_cons_of_mem _ hw'), h1, h2⟩
    · rcases List.mem_cons.mp hu with rfl | hu'
      · exact ⟨_, List.mem_cons_self _ _, rfl, rfl⟩
      · obtain ⟨w, hw, h1, h2⟩ := ih _ u hu'
        rcases List.mem_cons.mp hw with rfl | hw'
        · exact ⟨w, List.mem_cons_of_mem _ (List.mem_cons_self _ _), h1, h2⟩
        · exact ⟨w, List.mem_cons_of_mem _ (List.mem_cons_of_mem _ hw'), h1, h2⟩

theorem clusterGo_ends {q : ℚ} :
    ∀ (l : List Session) (cur : Session), ∀ u ∈ clusterGo q cur l,
      ∃ w ∈ cur :: l, u.assignment_id = w.assignment_id ∧
        u.end_time = w.end_time := by
  intro l
  induction l with
  | nil =>
    intro cur u hu
    rw [clusterGo] at hu
    simp only [List.mem_singleton] at hu
    exact ⟨cur, List.mem_cons_self _ _, by rw [hu], by rw [hu]⟩
  | cons s rest ih =>
    intro cur u hu
    rw [clusterGo] at hu
    split at hu
    · rename_i hcond
      obtain ⟨hid, hadj, _⟩ := hcond
      obtain ⟨w, hw, h1, h2⟩ := ih _ u hu
      rcases List.mem_cons.mp hw with rfl | hw'
      · refine ⟨s, List.mem_cons_of_mem _ (List.mem_cons_self _ _), ?_, h2⟩
        rw [← hid]
        exact h1
      · exact ⟨w, List.mem_cons_of_mem _ (List.mem_cons_of_mem _ hw'), h1, h2⟩
    · rcases List.mem_cons.mp hu with rfl | hu'
      · exact ⟨_, List.mem_cons_self _ _, rfl, rfl⟩
      · obtain ⟨w, hw, h1, h2⟩ := ih _ u hu'
        rcases List.mem_cons.mp hw with rfl | hw'
        · exact ⟨w, List.mem_cons_of_mem _ (List.mem_cons_self _ _), h1, h2⟩
        · exact ⟨w, List.mem_cons_of_mem _ (List.mem_cons_of_mem _ hw'), h1, h2⟩

theorem clusterGo_pairwise {q : ℚ} :
    ∀ (l : List Session) (cur : Session), (cur :: l).Pairwise sessBefore →
      (clusterGo q cur l).Pairwise sessBefore := by
  intro l
  induction l with
  | nil =>
    intro cur _
    rw [clusterGo]
    simp
  | cons s rest ih =>
    intro cur hp
    obtain ⟨hp1, hp2⟩ := List.pairwise_cons.mp hp
    obtain ⟨hp3, hp4⟩ := List.pairwise_cons.mp hp2
    rw [clusterGo]
    split
    · apply ih
      refine List.pairwise_cons.mpr ⟨?_, hp4⟩
      intro b hb
      exact hp3 b hb
    · refine List.pairwise_cons.mpr ⟨?_, ih s hp2⟩
      intro u hu
      obtain ⟨w, hw, _, h2⟩ := clusterGo_starts _ _ u hu
      unfold sessBefore
      rw [h2]
      rcases List.mem_cons.mp hw with rfl | hw'
      · exact hp1 w (List.mem_cons_self _ _)
      · exact hp1 w (List.mem_cons_of_mem _ hw')

theorem clusterGo_covers {q : ℚ} {aid : Nat} {t : ℚ} :
    ∀ (l : List Session) (cur : Session), (∀ u ∈ cur :: l, 0 < u.duration) →
      (covers (clusterGo q cur l) aid t ↔ covers (cur :: l) aid t) := by
  intro l
  induction l with
  | nil =>
    intro cur _
    rw [clusterGo]
  | cons s rest ih =>
    intro cur hpos
    have hposcur : 0 < cur.duration := hpos cur (List.mem_cons_self _ _)
    have hposs : 0 < s.duration :=
      hpos s (List.mem_cons_of_mem _ (List.mem_cons_self _ _))
    rw [clusterGo]
    split
    · rename_i hcond
      obtain ⟨hid, hadj, _⟩ := hcond
      have hmdur : (⟨cur.assignment_id, cur.start_time, s.end_time⟩ : Session).duration =
          cur.duration + s.duration := by
        unfold Session.duration
        rw [← hadj]
        ring
      have hpos' : ∀ u ∈ (⟨cur.assignment_id, cur.start_time, s.end_time⟩ : Session)
          :: rest, 0 < u.duration := by
        intro u hu
        rcases List.mem_cons.mp hu with rfl | hu'
        · rw [hmdur]
          linarith
        · exact hpos u (List.mem_cons_of_mem _ (List.mem_cons_of_mem _ hu'))
      rw [ih _ hpos', covers_cons, covers_cons, covers_cons]
      unfold Session.duration at hposcur hposs
      constructor
      · rintro (⟨h1, h2, h3⟩ | hL)
        · by_cases ht : t < cur.end_time
          · exact Or.inl ⟨h1, h2, ht⟩
          · refine Or.inr (Or.inl ⟨?_, ?_, h3⟩)
            · rw [← hid]
              exact h1
            · rw [← hadj]
              exact not_lt.mp ht
        · exact Or.inr (Or.inr hL)
      · rintro (⟨h1, h2, h3⟩ | ⟨h1, h2, h3⟩ | hL)
        · refine Or.inl ⟨h1, h2, ?_⟩
          show t < s.end_time
          have : cur.end_time = s.start_time := hadj
          linarith
        · refine Or.inl ⟨?_, ?_, h3⟩
          · show cur.assignment_id = aid
            rw [hid]
            exact h1
          · show cur.start_time ≤ t
            have : cur.end_time = s.start_time := hadj
            linarith
        · exact Or.inr hL
    · rw [covers_cons, covers_cons,
        ih s (fun u hu => hpos u (List.mem_cons_of_mem _ hu)), covers_cons]

theorem clusterGo_sumDur {q : ℚ} {aid : Nat} :
    ∀ (l : List Session) (cur : Session),
      sumDurFor aid (clusterGo q cur l) = sumDurFor aid (cur :: l) := by
  intro l
  induction l with
  | nil => intro cur; rw [clusterGo]
  | cons s rest ih =>
    intro cur
    rw [clusterGo]
    split
    · rename_i hcond
      obtain ⟨hid, hadj, _⟩ := hcond
      rw [ih]
      have hmid : (⟨cur.assignment_id, cur.start_time, s.end_time⟩ : Session).assignment_id
          = cur.assignment_id := rfl
      have hmdur : (⟨cur.assignment_id, cur.start_time, s.end_time⟩ : Session).duration =
          cur.duration + s.duration := by
        unfold Session.duration
        rw [← hadj]
        ring
      rw [sumDurFor_cons, sumDurFor_cons, sumDurFor_cons, hmid, hmdur]
      by_cases hca : cur.assignment_id = aid
      · rw [if_pos hca, if_pos hca, if_pos (by rw [← hid]; exact hca)]
        ring
      · rw [if_neg hca, if_neg hca, if_neg (by rw [← hid]; exact hca)]
        ring
    · simp only [sumDurFor_cons, ih]

theorem clusterGo_dur {q : ℚ} :
    ∀ (l : List Session) (cur : Session), (∀ u ∈ cur :: l, 0 < u.duration) →
      (∀ u ∈ cur :: l, u.duration ≤ q) →
      ∀ u ∈ clusterGo q cur l, 0 < u.duration ∧ u.duration ≤ q := by
  intro l
  induction l with
  | nil =>
    intro cur hpos hle u hu
    rw [clusterGo] at hu
    simp only [List.mem_singleton] at hu
    exact hu ▸ ⟨hpos cur (List.mem_cons_self _ _), hle cur (List.mem_cons_self _ _)⟩
  | cons s rest ih =>
    intro cur hpos hle u hu
    have hposcur : 0 < cur.duration := hpos cur (List.mem_cons_self _ _)
    have hposs : 0 < s.duration :=
      hpos s (List.mem_cons_of_mem _ (List.mem_cons_self _ _))
    rw [clusterGo] at hu
    split at hu
    · rename_i hcond
      obtain ⟨hid, hadj, hlen⟩ := hcond
      have hmdur : (⟨cur.assignment_id, cur.start_time, s.end_time⟩ : Session).duration =
          cur.duration + s.duration := by
        unfold Session.duration
        rw [← hadj]
        ring
      refine ih _ ?_ ?_ u hu
      · intro v hv
        rcases List.mem_cons.mp hv with rfl | hv'
        · rw [hmdur]
          linarith
        · exact hpos v (List.mem_cons_of_mem _ (List.mem_cons_of_mem _ hv'))
      · intro v hv
        rcases List.mem_cons.mp hv with rfl | hv'
        · show s.end_time - cur.start_time ≤ q
          exact hlen
        · exact hle v (List.mem_cons_of_mem _ (List.mem_cons_of_mem _ hv'))
    · rcases List.mem_cons.mp hu with rfl | hu'
      · exact ⟨hpos _ (List.mem_cons_self _ _), hle _ (List.mem_cons_self _ _)⟩
      · exact ih s (fun v hv => hpos v (List.mem_cons_of_mem _ hv))
          (fun v hv => hle v (List.mem_cons_of_mem _ hv)) u hu'

theorem clusterGo_frag_mem {q m : ℚ} :
    ∀ (l : List Session) (cur : Session), (∀ u ∈ cur :: l, 0 < u.duration) →
      (∀ u ∈ cur :: l, ∀ v ∈ cur :: l, u.assignment_id = v.assignment_id →
        u.duration < m → v.duration < m → u = v) →
      ∀ u ∈ clusterGo q cur l, u.duration < m → u ∈ cur :: l := by
  intro l
  induction l with
  | nil =>
    intro cur _ _ u hu _
    rw [clusterGo] at hu
    simpa using hu
  | cons s rest ih =>
    intro cur hpos huniq u hu hud
    have hposcur : 0 < cur.duration := hpos cur (List.mem_cons_self _ _)
    have hposs : 0 < s.duration :=
      hpos s (List.mem_cons_of_mem _ (List.mem_cons_self _ _))
    rw [clusterGo] at hu
    split at hu
    · rename_i hcond
      obtain ⟨hid, hadj, _⟩ := hcond
      have hmdur : (⟨cur.assignment_id, cur.start_time, s.end_time⟩ : Session).duration =
          cur.duration + s.duration := by
        unfold Session.duration
        rw [← hadj]
        ring
      have hmfrag : ¬((⟨cur.assignment_id, cur.start_time, s.end_time⟩ : Session).duration
          < m) := by
        intro hmd
        rw [hmdur] at hmd
        have hcd : cur.duration < m := by linarith
        have hsd : s.duration < m := by linarith
        have hcs : cur = s := huniq cur (List.mem_cons_self _ _)
          s (List.mem_cons_of_mem _ (List.mem_cons_self _ _)) hid hcd hsd
        rw [hcs] at hposcur hadj
        unfold Session.duration at hposcur
        linarith [hadj.symm.le]
      have hpos' : ∀ v ∈ (⟨cur.assignment_id, cur.start_time, s.end_time⟩ : Session)
          :: rest, 0 < v.duration := by
        intro v hv
        rcases List.mem_cons.mp hv with rfl | hv'
        · rw [hmdur]
          linarith
        · exact hpos v (List.mem_cons_of_mem _ (List.mem_cons_of_mem _ hv'))
      have huniq' : ∀ x ∈ (⟨cur.assignment_id, cur.start_time, s.end_time⟩ : Session)
          :: rest, ∀ v ∈ (⟨cur.assignment_id, cur.start_time, s.end_time⟩ : Session)
          :: rest, x.assignment_id = v.assignment_id →
          x.duration < m → v.duration < m → x = v := by
        intro x hx v hv hxv hxd hvd
        rcases List.mem_cons.mp hx with rfl | hx'
        · exact absurd hxd hmfrag
        · rcases List.mem_cons.mp hv with rfl | hv'
          · exact absurd hvd hmfrag
          · exact huniq x (List.mem_cons_of_mem _ (List.mem_cons_of_mem _ hx'))
              v (List.mem_cons_of_mem _ (List.mem_cons_of_mem _ hv')) hxv hxd hvd
      have := ih _ hpos' huniq' u hu hud
      rcases List.mem_cons.mp this with rfl | h'
      · exact absurd hud hmfrag
      · exact List.mem_cons_of_mem _ (List.mem_cons_of_mem _ h')
    · rcases List.mem_cons.mp hu with rfl | hu'
      · exact List.mem_cons_self _ _
      · have := ih s (fun v hv => hpos v (List.mem_cons_of_mem _ hv))
          (fun x hx v hv => huniq x (List.mem_cons_of_mem _ hx)
            v (List.mem_cons_of_mem _ hv)) u hu' hud
        exact List.mem_cons_of_mem _ this

theorem clusterOptimize_pairwise {q : ℚ} {l : List Session}
    (h : l.Pairwise sessBefore) : (clusterOptimize q l).Pairwise sessBefore := by
  cases l with
  | nil => exact List.Pairwise.nil
  | cons s rest => exact clusterGo_pairwise rest s h

theorem clusterOptimize_covers {q : ℚ} {l : List Session} {aid : Nat} {t : ℚ}
    (hpos : ∀ u ∈ l, 0 < u.duration) :
    covers (clusterOptimize q l) aid t ↔ covers l aid t := by
  cases l with
  | nil => rw [clusterOptimize]
  | cons s rest => exact clusterGo_covers rest s hpos

theorem clusterOptimize_sumDur {q : ℚ} {l : List Session} {aid : Nat} :
    sumDurFor aid (clusterOptimize q l) = sumDurFor aid l := by
  cases l with
  | nil => rw [clusterOptimize]
  | cons s rest => exact clusterGo_sumDur rest s

theorem clusterOptimize_dur {q : ℚ} {l : List Session}
    (hpos : ∀ u ∈ l, 0 < u.duration) (hle : ∀ u ∈ l, u.duration ≤ q) :
    ∀ u ∈ clusterOptimize q l, 0 < u.duration ∧ u.duration ≤ q := by
  cases l with
  | nil => intro u hu; simp [clusterOptimize] at hu
  | cons s rest => exact clusterGo_dur rest s hpos hle

theorem clusterOptimize_frag_mem {q m : ℚ} {l : List Session}
    (hpos : ∀ u ∈ l, 0 < u.duration)
    (huniq : ∀ u ∈ l, ∀ v ∈ l, u.assignment_id = v.assignment_id →
      u.duration < m → v.duration < m → u = v) :
    ∀ u ∈ clusterOptimize q l, u.duration < m → u ∈ l := by
  cases l with
  | nil => intro u hu; simp [clusterOptimize] at hu
  | cons s rest => exact clusterGo_frag_mem rest s hpos huniq

theorem clusterOptimize_ends {q : ℚ} {l : List Session} :
    ∀ u ∈ clusterOptimize q l, ∃ w ∈ l, u.assignment_id = w.assignment_id ∧
      u.end_time = w.end_time := by
  cases l with
  | nil => intro u hu; simp [clusterOptimize] at hu
  | cons s rest => exact clusterGo_ends rest s

theorem clusterOptimize_starts {q : ℚ} {l : List Session} :
    ∀ u ∈ clusterOptimize q l, ∃ w ∈ l, u.assignment_id = w.assignment_id ∧
      u.start_time = w.start_time := by
  cases l with
  | nil => intro u hu; simp [clusterOptimize] at hu
  | cons s rest => exact clusterGo_starts rest s

/-! ## Lemmas about building the availability index -/

theorem expandSlots_pos {h : Horizon} {slots : List AvailabilitySlot} :
    ∀ i ∈ expandSlots h slots, i.lo < i.hi := by
  intro i hi
  unfold expandSlots at hi
  obtain ⟨_, hdec⟩ := List.mem_filter.mp hi
  exact of_decide_eq_true hdec

theorem mergeSorted_lo {l : List Interval} :
    ∀ k ∈ mergeSorted l, ∃ x ∈ l, k.lo = x.lo := by
  induction l using mergeSorted.induct with
  | case1 =>
    intro k hk
    simp [mergeSorted] at hk
  | case2 i =>
    intro k hk
    rw [mergeSorted] at hk
    simp only [List.mem_singleton] at hk
    exact ⟨i, List.mem_cons_self _ _, by rw [hk]⟩
  | case3 i j rest hij ih =>
    intro k hk
    rw [mergeSorted, if_pos hij] at hk
    obtain ⟨x, hx, hkx⟩ := ih k hk
    rcases List.mem_cons.mp hx with rfl | hx'
    · exact ⟨i, List.mem_cons_self _ _, hkx⟩
    · exact ⟨x, List.mem_cons_of_mem _ (List.mem_cons_of_mem _ hx'), hkx⟩
  | case4 i j rest hij ih =>
    intro k hk
    rw [mergeSorted, if_neg hij] at hk
    rcases List.mem_cons.mp hk with rfl | hk'
    · exact ⟨k, List.mem_cons_self _ _, rfl⟩
    · obtain ⟨x, hx, hkx⟩ := ih k hk'
      exact ⟨x, List.mem_cons_of_mem _ hx, hkx⟩

theorem mergeSorted_inv {l : List Interval} :
    l.Pairwise intervalLE → (∀ i ∈ l, i.lo < i.hi) →
      (∀ k ∈ mergeSorted l, k.lo < k.hi) ∧
        (mergeSorted l).Pairwise Interval.disj := by
  induction l using mergeSorted.induct with
  | case1 =>
    intro _ _
    rw [mergeSorted]
    exact ⟨by simp, List.Pairwise.nil⟩
  | case2 i =>
    intro _ hpos
    rw [mergeSorted]
    exact ⟨by simpa using hpos i (List.mem_cons_self _ _), by simp⟩
  | case3 i j rest hij ih =>
    intro hsort hpos
    rw [mergeSorted, if_pos hij]
    obtain ⟨hs1, hs2⟩ := List.pairwise_cons.mp hsort
    obtain ⟨hs3, hs4⟩ := List.pairwise_cons.mp hs2
    apply ih
    · refine List.pairwise_cons.mpr ⟨?_, hs4⟩
      intro x hx
      exact hs1 x (List.mem_cons_of_mem _ hx)
    · intro x hx
      rcases List.mem_cons.mp hx with rfl | hx'
      · show i.lo < max i.hi j.hi
        exact lt_of_lt_of_le (hpos i (List.mem_cons_self _ _)) (le_max_left _ _)
      · exact hpos x (List.mem_cons_of_mem _ (List.mem_cons_of_mem _ hx'))
  | case4 i j rest hij ih =>
    intro hsort hpos
    rw [mergeSorted, if_neg hij]
    obtain ⟨hs1, hs2⟩ := List.pairwise_cons.mp hsort
    obtain ⟨hpos2, hpair2⟩ := ih hs2
      (fun x hx => hpos x (List.mem_cons_of_mem _ hx))
    refine ⟨?_, List.pairwise_cons.mpr ⟨?_, hpair2⟩⟩
    · intro k hk
      rcases List.mem_cons.mp hk with rfl | hk'
      · exact hpos k (List.mem_cons_self _ _)
      · exact hpos2 k hk'
    · intro k hk
      obtain ⟨x, hx, hkx⟩ := mergeSorted_lo k hk
      have hjx : j.lo ≤ x.lo := by
        rcases List.mem_cons.mp hx with rfl | hx'
        · exact le_refl _
        · exact (List.pairwise_cons.mp hs2).1 x hx'
      left
      rw [hkx]
      have : i.hi < j.lo := not_le.mp hij
      linarith

theorem buildIndex_inv (h : Horizon) (slots : List AvailabilitySlot) :
    FreeInv (buildIndex h slots) := by
  unfold buildIndex
  have hperm := List.perm_insertionSort intervalLE (expandSlots h slots)
  have hpos : ∀ i ∈ List.insertionSort intervalLE (expandSlots h slots), i.lo < i.hi :=
    fun i hi => expandSlots_pos i (hperm.mem_iff.mp hi)
  have hsort : (List.insertionSort intervalLE (expandSlots h slots)).Pairwise intervalLE :=
    List.sorted_insertionSort intervalLE (expandSlots h slots)
  obtain ⟨h1, h2⟩ := mergeSorted_inv hsort hpos
  exact ⟨h1, h2⟩

/-! ## Lemmas about the PriorityScorer -/

theorem priorityScorer_perm (now : ℚ) (l : List Assignment) :
    (priorityScorer now l).Perm (l.filter (fun a => !a.is_completed)) :=
  List.perm_insertionSort (scoreLE now) _

theorem priorityScorer_sorted (now : ℚ) (l : List Assignment) :
    (priorityScorer now l).Pairwise (scoreLE now) :=
  List.sorted_insertionSort (scoreLE now) _

theorem priorityScorer_mem {now : ℚ} {l : List Assignment} {a : Assignment} :
    a ∈ priorityScorer now l ↔ a ∈ l ∧ a.is_completed = false := by
  rw [(priorityScorer_perm now l).mem_iff, List.mem_filter]
  simp

theorem priorityScorer_nodup {now : ℚ} {l : List Assignment}
    (hn : (l.map Assignment.id).Nodup) :
    ((priorityScorer now l).map Assignment.id).Nodup := by
  have h1 : ((l.filter (fun a => !a.is_completed)).map Assignment.id).Nodup :=
    ((List.filter_sublist l).map Assignment.id).nodup hn
  exact (((priorityScorer_perm now l).map Assignment.id).nodup_iff).mpr h1

/-! ## Lemmas about the assembled result -/

theorem allocAll_cov_uniq {cfg : Config} {h : Horizon} :
    ∀ (l : List Assignment) (fs : List Interval), (l.map Assignment.id).Nodup →
      ∀ e1 ∈ (allocAll cfg h l fs).2.1, ∀ e2 ∈ (allocAll cfg h l fs).2.1,
        e1.aid = e2.aid → e1 = e2 := by
  intro l
  induction l with
  | nil => intro fs _ e1 he1; simp [allocAll] at he1
  | cons a rest ih =>
    intro fs hn e1 he1 e2 he2 haid
    have hn' : (rest.map Assignment.id).Nodup := by
      simp only [List.map_cons, List.nodup_cons] at hn
      exact hn.2
    have hnotin : a.id ∉ rest.map Assignment.id := by
      simp only [List.map_cons, List.nodup_cons] at hn
      exact hn.1
    rw [allocAll] at he1 he2
    by_cases hel : a.required_hours ≤ 0 ∨ a.due_date < h.start
    · rw [if_pos hel] at he1 he2
      exact ih fs hn' e1 he1 e2 he2 haid
    · rw [if_neg hel] at he1 he2
      simp only [List.mem_cons] at he1 he2
      rcases he1 with rfl | he1' <;> rcases he2 with rfl | he2'
      · rfl
      · exfalso
        obtain ⟨a', ha', _, hid', _⟩ := allocAll_cov rest _ e2 he2'
        apply hnotin
        apply List.mem_map.mpr
        refine ⟨a', ha', ?_⟩
        rw [← hid']
        exact haid.symm
      · exfalso
        obtain ⟨a', ha', _, hid', _⟩ := allocAll_cov rest _ e1 he1'
        apply hnotin
        exact List.mem_map.mpr ⟨a', ha', by rw [← hid', haid]⟩
      · exact ih _ hn' e1 he1' e2 he2' haid

theorem assemble_sessions_def (cfg : Config) (h : Horizon)
    (slots : List AvailabilitySlot) (as : List Assignment) :
    (assemble cfg h slots as).study_sessions =
      clusterOptimize cfg.maxSessionLength (sortSessions
        (allocAll cfg h (priorityScorer h.start as) (buildIndex h slots)).1) := rfl

theorem assemble_total_def (cfg : Config) (h : Horizon)
    (slots : List AvailabilitySlot) (as : List Assignment) :
    (assemble cfg h slots as).total_hours_scheduled =
      ((assemble cfg h slots as).study_sessions.map Session.duration).sum := rfl

theorem assemble_covered_def (cfg : Config) (h : Horizon)
    (slots : List AvailabilitySlot) (as : List Assignment) :
    (assemble cfg h slots as).covered_ids =
      ((allocAll cfg h (priorityScorer h.start as) (buildIndex h slots)).2.1.filter
        (fun c => decide (c.remaining = 0))).map CoverageEntry.aid := rfl

theorem assemble_uncovered_def (cfg : Config) (h : Horizon)
    (slots : List AvailabilitySlot) (as : List Assignment) :
    (assemble cfg h slots as).uncovered =
      ((allocAll cfg h (priorityScorer h.start as) (buildIndex h slots)).2.1.filter
        (fun c => decide (0 < c.remaining))).map (fun c => (c.aid, c.remaining)) := rfl

theorem sumDurFor_perm {l1 l2 : List Session} (hp : l1.Perm l2) (aid : Nat) :
    sumDurFor aid l1 = sumDurFor aid l2 :=
  ((hp.filter _).map _).sum_eq

theorem draft_pos {cfg : Config} {h : Horizon} {slots : List AvailabilitySlot}
    {as : List Assignment} (hmax : 0 < cfg.maxSessionLength) :
    ∀ s ∈ sortSessions (allocAll cfg h (priorityScorer h.start as)
      (buildIndex h slots)).1, 0 < s.duration := by
  intro s hs
  have hs' := (sortSessions_perm _).mem_iff.mp hs
  obtain ⟨_, _, _, _, _, _, hpos, _⟩ := allocAll_bounds hmax _ _ s hs'
  exact hpos

theorem draft_le {cfg : Config} {h : Horizon} {slots : List AvailabilitySlot}
    {as : List Assignment} (hmax : 0 < cfg.maxSessionLength) :
    ∀ s ∈ sortSessions (allocAll cfg h (priorityScorer h.start as)
      (buildIndex h slots)).1, s.duration ≤ cfg.maxSessionLength := by
  intro s hs
  have hs' := (sortSessions_perm _).mem_iff.mp hs
  obtain ⟨_, _, _, _, _, _, _, hle⟩ := allocAll_bounds hmax _ _ s hs'
  exact hle

theorem chron_before {cfg : Config} {h : Horizon} {slots : List AvailabilitySlot}
    {as : List Assignment} (hmax : 0 < cfg.maxSessionLength) :
    (sortSessions (allocAll cfg h (priorityScorer h.start as)
      (buildIndex h slots)).1).Pairwise sessBefore := by
  obtain ⟨_, _, _, hpw, _⟩ := allocAll_master hmax (priorityScorer h.start as)
    (buildIndex h slots) (buildIndex_inv h slots)
  have hpw2 := (List.Perm.pairwise_iff (fun hab => sessDisj_symm hab)
    (sortSessions_perm _)).mpr hpw
  exact sorted_disj_before (sortSessions_sorted _) hpw2 (draft_pos hmax)

theorem assemble_pairwise {cfg : Config} {h : Horizon} {slots : List AvailabilitySlot}
    {as : List Assignment} (hmax : 0 < cfg.maxSessionLength) :
    (assemble cfg h slots as).study_sessions.Pairwise sessBefore := by
  rw [assemble_sessions_def]
  exact clusterOptimize_pairwise (chron_before hmax)

theorem assemble_sessions {cfg : Config} {h : Horizon} {slots : List AvailabilitySlot}
    {as : List Assignment} (hmax : 0 < cfg.maxSessionLength) :
    ∀ s ∈ (assemble cfg h slots as).study_sessions,
      (∃ a ∈ as, a.is_completed = false ∧ eligible h a ∧ s.assignment_id = a.id ∧
        s.end_time ≤ a.due_date) ∧
      h.start ≤ s.start_time ∧ 0 < s.duration ∧ s.duration ≤ cfg.maxSessionLength := by
  intro s hs
  rw [assemble_sessions_def] at hs
  obtain ⟨hdp, hdl⟩ := clusterOptimize_dur (draft_pos hmax) (draft_le hmax) s hs
  refine ⟨?_, ?_, hdp, hdl⟩
  · obtain ⟨w, hw, hid, hend⟩ := clusterOptimize_ends s hs
    have hw' := (sortSessions_perm _).mem_iff.mp hw
    obtain ⟨a, ha, hel, haid, _, hdue, _, _⟩ := allocAll_bounds hmax _ _ w hw'
    obtain ⟨hmem, hcomp⟩ := priorityScorer_mem.mp ha
    exact ⟨a, hmem, hcomp, hel, by rw [hid, haid], by rw [hend]; exact hdue⟩
  · obtain ⟨w, hw, _, hstart⟩ := clusterOptimize_starts s hs
    have hw' := (sortSessions_perm _).mem_iff.mp hw
    obtain ⟨a, ha, _, _, hnb, _, _, _⟩ := allocAll_bounds hmax _ _ w hw'
    rw [hstart]
    exact hnb

theorem assemble_sumDur {cfg : Config} {h : Horizon} {slots : List AvailabilitySlot}
    {as : List Assignment} (aid : Nat) :
    sumDurFor aid (assemble cfg h slots as).study_sessions =
      sumDurFor aid (allocAll cfg h (priorityScorer h.start as)
        (buildIndex h slots)).1 := by
  rw [assemble_sessions_def, clusterOptimize_sumDur]
  exact sumDurFor_perm (sortSessions_perm _) aid

theorem assemble_cov {cfg : Config} {h : Horizon} {slots : List AvailabilitySlot}
    {as : List Assignment} (hmax : 0 < cfg.maxSessionLength)
    (hn : (as.map Assignment.id).Nodup) :
    ∀ a ∈ as, a.is_completed = false → eligible h a →
      ∃ rem, 0 ≤ rem ∧
        sumDurFor a.id (assemble cfg h slots as).study_sessions + rem =
          a.required_hours ∧
        (a.id ∈ (assemble cfg h slots as).covered_ids ↔ rem = 0) ∧
        ∀ x, ((a.id, x) ∈ (assemble cfg h slots as).uncovered ↔ (0 < rem ∧ x = rem)) := by
  intro a ha hcomp hel
  have hno := @priorityScorer_nodup h.start as hn
  have hmem : a ∈ priorityScorer h.start as := priorityScorer_mem.mpr ⟨ha, hcomp⟩
  obtain ⟨e, he, heaid, hereq⟩ :=
    allocAll_cov_complete (priorityScorer h.start as) (buildIndex h slots) a hmem hel
  obtain ⟨_, _, _, _, _, herem⟩ := allocAll_cov _ _ e he
  have hesum := allocAll_cov_sum hmax _ (buildIndex h slots) hno e he
  refine ⟨e.remaining, herem, ?_, ?_, ?_⟩
  · rw [assemble_sumDur, ← heaid, hesum, hereq]
  · rw [assemble_covered_def]
    constructor
    · intro hid
      obtain ⟨e', he'f, he'aid⟩ := List.mem_map.mp hid
      obtain ⟨he', he'rem⟩ := List.mem_filter.mp he'f
      have : e' = e := allocAll_cov_uniq _ _ hno e' he' e he (by rw [he'aid, heaid])
      rw [← this]
      exact of_decide_eq_true he'rem
    · intro hrem
      exact List.mem_map.mpr ⟨e, List.mem_filter.mpr ⟨he, decide_eq_true hrem⟩, heaid⟩
  · intro x
    rw [assemble_uncovered_def]
    constructor
    · intro hid
      obtain ⟨e', he'f, he'pair⟩ := List.mem_map.mp hid
      obtain ⟨he', he'rem⟩ := List.mem_filter.mp he'f
      obtain ⟨h1, h2⟩ := Prod.mk.injEq .. ▸ he'pair
      have : e' = e := allocAll_cov_uniq _ _ hno e' he' e he (by rw [h1, heaid])
      rw [← this]
      exact ⟨of_decide_eq_true he'rem, h2.symm⟩
    · rintro ⟨hrem, rfl⟩
      exact List.mem_map.mpr ⟨e, List.mem_filter.mpr ⟨he, decide_eq_true hrem⟩,
        by rw [heaid]⟩

theorem assemble_uncovered_entries {cfg : Config} {h : Horizon}
    {slots : List AvailabilitySlot} {as : List Assignment}
    (hmax : 0 < cfg.maxSessionLength) (hn : (as.map Assignment.id).Nodup) :
    ∀ p ∈ (assemble cfg h slots as).uncovered,
      ∃ a ∈ as, a.is_completed = false ∧ eligible h a ∧ p.1 = a.id ∧
        p.2 = a.required_hours -
          sumDurFor a.id (assemble cfg h slots as).study_sessions ∧ 0 < p.2 := by
  intro p hp
  have hno := @priorityScorer_nodup h.start as hn
  rw [assemble_uncovered_def] at hp
  obtain ⟨e, hef, hepair⟩ := List.mem_map.mp hp
  obtain ⟨he, herem⟩ := List.mem_filter.mp hef
  obtain ⟨a, ha, hel, heaid, hereq, _⟩ := allocAll_cov _ _ e he
  obtain ⟨hmem, hcomp⟩ := priorityScorer_mem.mp ha
  have hesum := allocAll_cov_sum hmax _ (buildIndex h slots) hno e he
  refine ⟨a, hmem, hcomp, hel, ?_, ?_, ?_⟩
  · rw [← hepair, ← heaid]
  · rw [← hepair]
    show e.remaining = a.required_hours - sumDurFor a.id _
    rw [assemble_sumDur, ← heaid, ← hereq]
    linarith
  · rw [← hepair]
    exact of_decide_eq_true herem

theorem assemble_skip {cfg : Config} {h : Horizon} {slots : List AvailabilitySlot}
    {as : List Assignment} (hmax : 0 < cfg.maxSessionLength)
    (hn : (as.map Assignment.id).Nodup) :
    ∀ a ∈ as, (a.is_completed = true ∨ ¬eligible h a) →
      (∀ s ∈ (assemble cfg h slots as).study_sessions, s.assignment_id ≠ a.id) ∧
      a.id ∉ (assemble cfg h slots as).covered_ids ∧
      ∀ p ∈ (assemble cfg h slots as).uncovered, p.1 ≠ a.id := by
  intro a ha hskip
  have hno := @priorityScorer_nodup h.start as hn
  have howner : ∀ (a' : Assignment), a' ∈ as → a'.is_completed = false →
      eligible h a' → a'.id ≠ a.id := by
    intro a' ha' hcomp' hel' hcontra
    have : a' = a := List.inj_on_of_nodup_map hn ha' ha hcontra
    subst this
    rcases hskip with hc | hc
    · rw [hcomp'] at hc
      exact Bool.false_ne_true hc
    · exact hc hel'
  refine ⟨?_, ?_, ?_⟩
  · intro s hs
    obtain ⟨⟨a', ha', hcomp', hel', haid', _⟩, _⟩ := assemble_sessions hmax s hs
    rw [haid']
    exact howner a' ha' hcomp' hel'
  · intro hid
    rw [assemble_covered_def] at hid
    obtain ⟨e, hef, heaid⟩ := List.mem_map.mp hid
    obtain ⟨he, _⟩ := List.mem_filter.mp hef
    obtain ⟨a', ha', hel', heaid', _⟩ := allocAll_cov _ _ e he
    obtain ⟨hmem', hcomp'⟩ := priorityScorer_mem.mp ha'
    exact howner a' hmem' hcomp' hel' (by rw [← heaid', heaid])
  · intro p hp
    rw [assemble_uncovered_def] at hp
    obtain ⟨e, hef, hepair⟩ := List.mem_map.mp hp
    obtain ⟨he, _⟩ := List.mem_filter.mp hef
    obtain ⟨a', ha', hel', heaid', _⟩ := allocAll_cov _ _ e he
    obtain ⟨hmem', hcomp'⟩ := priorityScorer_mem.mp ha'
    rw [← hepair]
    show e.aid ≠ a.id
    rw [heaid']
    exact howner a' hmem' hcomp' hel'

theorem assemble_frag {cfg : Config} {h : Horizon} {slots : List AvailabilitySlot}
    {as : List Assignment} (hmin : 0 < cfg.minSessionLength)
    (hmm : cfg.minSessionLength ≤ cfg.maxSessionLength)
    (hn : (as.map Assignment.id).Nodup) :
    ∀ s ∈ (assemble cfg h slots as).study_sessions,
      s.duration < cfg.minSessionLength →
      ∃ a ∈ as, a.id = s.assignment_id ∧
        sumDurFor a.id (assemble cfg h slots as).study_sessions = a.required_hours := by
  have hmax : 0 < cfg.maxSessionLength := lt_of_lt_of_le hmin hmm
  have hno := @priorityScorer_nodup h.start as hn
  intro s hs hsd
  rw [assemble_sessions_def] at hs
  have huniq : ∀ u ∈ sortSessions (allocAll cfg h (priorityScorer h.start as)
      (buildIndex h slots)).1, ∀ v ∈ sortSessions (allocAll cfg h
      (priorityScorer h.start as) (buildIndex h slots)).1,
      u.assignment_id = v.assignment_id → u.duration < cfg.minSessionLength →
      v.duration < cfg.minSessionLength → u = v := by
    intro u hu v hv
    exact allocAll_frag_uniq hmin hmm _ _ hno u ((sortSessions_perm _).mem_iff.mp hu)
      v ((sortSessions_perm _).mem_iff.mp hv)
  have hmem := clusterOptimize_frag_mem (draft_pos hmax) huniq s hs hsd
  have hmem' := (sortSessions_perm _).mem_iff.mp hmem
  obtain ⟨a, ha, hel, haid, hsum⟩ := allocAll_frag hmin hmm _ _ hno s hmem' hsd
  obtain ⟨hmema, _⟩ := priorityScorer_mem.mp ha
  refine ⟨a, hmema, haid, ?_⟩
  rw [assemble_sumDur]
  rw [hsum]

theorem assemble_frag_uniq {cfg : Config} {h : Horizon} {slots : List AvailabilitySlot}
    {as : List Assignment} (hmin : 0 < cfg.minSessionLength)
    (hmm : cfg.minSessionLength ≤ cfg.maxSessionLength)
    (hn : (as.map Assignment.id).Nodup) :
    ∀ s ∈ (assemble cfg h slots as).study_sessions,
      ∀ t ∈ (assemble cfg h slots as).study_sessions,
        s.assignment_id = t.assignment_id → s.duration < cfg.minSessionLength →
        t.duration < cfg.minSessionLength → s = t := by
  have hmax : 0 < cfg.maxSessionLength := lt_of_lt_of_le hmin hmm
  have hno := @priorityScorer_nodup h.start as hn
  intro s hs t ht hid hsd htd
  rw [assemble_sessions_def] at hs ht
  have huniq : ∀ u ∈ sortSessions (allocAll cfg h (priorityScorer h.start as)
      (buildIndex h slots)).1, ∀ v ∈ sortSessions (allocAll cfg h
      (priorityScorer h.start as) (buildIndex h slots)).1,
      u.assignment_id = v.assignment_id → u.duration < cfg.minSessionLength →
      v.duration < cfg.minSessionLength → u = v := by
    intro u hu v hv
    exact allocAll_frag_uniq hmin hmm _ _ hno u ((sortSessions_perm _).mem_iff.mp hu)
      v ((sortSessions_perm _).mem_iff.mp hv)
  have hs' := clusterOptimize_frag_mem (draft_pos hmax) huniq s hs hsd
  have ht' := clusterOptimize_frag_mem (draft_pos hmax) huniq t ht htd
  exact huniq s hs' t ht' hid hsd htd

/-! ## Lemmas about `generateSchedule` -/

theorem generateSchedule_eq_ok {cfg : Config} {h : Horizon}
    {slots : List AvailabilitySlot} {as : List Assignment} (hh : h.start < h.stop) :
    generateSchedule cfg h slots as = Except.ok (assemble cfg h slots as) := by
  unfold generateSchedule
  rw [if_neg (not_le.mpr hh)]

theorem generateSchedule_ok_inv {cfg : Config} {h : Horizon}
    {slots : List AvailabilitySlot} {as : List Assignment} {r : ScheduleResult}
    (hr : generateSchedule cfg h slots as = Except.ok r) :
    h.start < h.stop ∧ r = assemble cfg h slots as := by
  unfold generateSchedule at hr
  split at hr
  · exact absurd hr (by simp)
  · rename_i hh
    exact ⟨not_le.mp hh, (Except.ok.inj hr).symm⟩

/-! ## Empty-availability degradation -/

theorem allocOne_nil {maxLen nb na : ℚ} {aid : Nat} {fuel : Nat} {remaining : ℚ} :
    allocOne maxLen nb na aid fuel remaining [] = ([], [], remaining) := by
  cases fuel with
  | zero => rfl
  | succ n =>
    rw [allocOne]
    split <;> rfl

theorem allocAll_nil_struct {cfg : Config} {h : Horizon} :
    ∀ l : List Assignment, (allocAll cfg h l []).1 = [] ∧
      ∀ e ∈ (allocAll cfg h l []).2.1, e.remaining = e.required := by
  intro l
  induction l with
  | nil => exact ⟨rfl, by simp [allocAll]⟩
  | cons a rest ih =>
    rw [allocAll]
    split
    · exact ih
    · simp only [allocOne_nil]
      refine ⟨by simp [ih.1], ?_⟩
      intro e he
      rcases List.mem_cons.mp he with rfl | he'
      · rfl
      · exact ih.2 e he'

theorem allocAll_nil_entry {cfg : Config} {h : Horizon} :
    ∀ l : List Assignment, ∀ a ∈ l, eligible h a →
      (⟨a.id, a.required_hours, a.required_hours⟩ : CoverageEntry) ∈
        (allocAll cfg h l []).2.1 := by
  intro l
  induction l with
  | nil => intro a ha; simp at ha
  | cons b rest ih =>
    intro a ha hel
    rw [allocAll]
    split
    · rename_i hb
      rcases List.mem_cons.mp ha with rfl | ha'
      · exact absurd hb hel
      · exact ih a ha' hel
    · simp only [allocOne_nil]
      rcases List.mem_cons.mp ha with rfl | ha'
      · exact List.mem_cons_self _ _
      · exact List.mem_cons_of_mem _ (ih a ha' hel)

theorem expandSlots_nil (h : Horizon) : expandSlots h [] = [] := by
  unfold expandSlots
  simp

theorem buildIndex_nil (h : Horizon) : buildIndex h [] = [] := by
  rw [buildIndex, expandSlots_nil]
  simp [List.insertionSort, mergeSorted]

/-! ## The claims -/

/-- C1: no two study sessions of one run's output overlap in time: for any
two distinct sessions of the result, one ends before the other starts. -/
theorem C1_no_overlap {cfg : Config} {h : Horizon} {slots : List AvailabilitySlot}
    {as : List Assignment} {r : ScheduleResult} (hmax : 0 < cfg.maxSessionLength)
    (hr : generateSchedule cfg h slots as = Except.ok r) :
    r.study_sessions.Pairwise (fun s1 s2 =>
      s1.end_time ≤ s2.start_time ∨ s2.end_time ≤ s1.start_time) := by
  obtain ⟨_, rfl⟩ := generateSchedule_ok_inv hr
  exact (assemble_pairwise hmax).imp (fun hst => Or.inl hst)

theorem C1_witness :
    (assemble cfgW hW slotsW asW).study_sessions.Pairwise (fun s1 s2 =>
      s1.end_time ≤ s2.start_time ∨ s2.end_time ≤ s1.start_time) :=
  C1_no_overlap (by decide) (generateSchedule_eq_ok (by decide))

/-- C2: every generated session has start < end and duration in
[minSessionLength, maxSessionLength], except that the final fragment of an
assignment may be shorter than minSessionLength: in that case the
assignment's hours are exactly exhausted, the session's duration equals the
assignment's remaining hours (required minus the other sessions' durations),
those remaining hours were themselves below minSessionLength, and the
session is never empty; at most one such fragment exists per assignment. -/
theorem C2_session_lengths {cfg : Config} {h : Horizon}
    {slots : List AvailabilitySlot} {as : List Assignment} {r : ScheduleResult}
    (hmin : 0 < cfg.minSessionLength)
    (hmm : cfg.minSessionLength ≤ cfg.maxSessionLength)
    (hn : (as.map Assignment.id).Nodup)
    (hr : generateSchedule cfg h slots as = Except.ok r) :
    (∀ s ∈ r.study_sessions, s.start_time < s.end_time ∧
      s.duration ≤ cfg.maxSessionLength ∧
      (cfg.minSessionLength ≤ s.duration ∨
        ∃ a ∈ as, a.id = s.assignment_id ∧
          sumDurFor a.id r.study_sessions = a.required_hours ∧
          s.duration = a.required_hours -
            (sumDurFor a.id r.study_sessions - s.duration) ∧
          a.required_hours - (sumDurFor a.id r.study_sessions - s.duration) <
            cfg.minSessionLength)) ∧
    ∀ s ∈ r.study_sessions, ∀ t ∈ r.study_sessions,
      s.assignment_id = t.assignment_id → s.duration < cfg.minSessionLength →
      t.duration < cfg.minSessionLength → s = t := by
  have hmax : 0 < cfg.maxSessionLength := lt_of_lt_of_le hmin hmm
  obtain ⟨_, rfl⟩ := generateSchedule_ok_inv hr
  constructor
  · intro s hs
    obtain ⟨_, _, hdp, hdl⟩ := assemble_sessions hmax s hs
    have hse : s.start_time < s.end_time := by
      unfold Session.duration at hdp
      linarith
    refine ⟨hse, hdl, ?_⟩
    by_cases hshort : cfg.minSessionLength ≤ s.duration
    · exact Or.inl hshort
    · right
      obtain ⟨a, ha, haid, hsum⟩ := assemble_frag hmin hmm hn s hs (not_le.mp hshort)
      refine ⟨a, ha, haid, hsum, by rw [hsum]; ring, ?_⟩
      rw [hsum]
      have : a.required_hours - (a.required_hours - s.duration) = s.duration := by ring
      rw [this]
      exact not_le.mp hshort
  · exact assemble_frag_uniq hmin hmm hn

theorem C2_witness :
    (assemble cfgW hW slotsW asW).study_sessions.Forall (fun s =>
      s.start_time < s.end_time ∧ s.duration ≤ cfgW.maxSessionLength ∧
      (cfgW.minSessionLength ≤ s.duration ∨
        ∃ a ∈ asW, a.id = s.assignment_id ∧
          sumDurFor a.id (assemble cfgW hW slotsW asW).study_sessions =
            a.required_hours ∧
          s.duration = a.required_hours -
            (sumDurFor a.id (assemble cfgW hW slotsW asW).study_sessions -
              s.duration) ∧
          a.required_hours -
            (sumDurFor a.id (assemble cfgW hW slotsW asW).study_sessions -
              s.duration) < cfgW.minSessionLength)) :=
  List.forall_iff_forall_mem.mpr
    (C2_session_lengths (by decide) (by decide) (by decide)
      (generateSchedule_eq_ok (by decide))).1

/-- C3: every session of a run ends no later than the due date of the
assignment it is allocated to. -/
theorem C3_due_dates {cfg : Config} {h : Horizon} {slots : List AvailabilitySlot}
    {as : List Assignment} {r : ScheduleResult} (hmax : 0 < cfg.maxSessionLength)
    (hr : generateSchedule cfg h slots as = Except.ok r) :
    ∀ s ∈ r.study_sessions, ∃ a ∈ as, s.assignment_id = a.id ∧
      s.end_time ≤ a.due_date := by
  obtain ⟨_, rfl⟩ := generateSchedule_ok_inv hr
  intro s hs
  obtain ⟨⟨a, ha, _, _, haid, hdue⟩, _⟩ := assemble_sessions hmax s hs
  exact ⟨a, ha, haid, hdue⟩

theorem C3_witness :
    (assemble cfgW hW slotsW asW).study_sessions.Forall (fun s =>
      ∃ a ∈ asW, s.assignment_id = a.id ∧ s.end_time ≤ a.due_date) :=
  List.forall_iff_forall_mem.mpr
    (C3_due_dates (by decide) (generateSchedule_eq_ok (by decide)))

/-- C4: per assignment, the sum of allocated session durations never exceeds
the required hours (exactly, hence within any tolerance), and equals the
required hours whenever the assignment id is reported covered. -/
theorem C4_coverage_sums {cfg : Config} {h : Horizon}
    {slots : List AvailabilitySlot} {as : List Assignment} {r : ScheduleResult}
    (hmax : 0 < cfg.maxSessionLength) (hn : (as.map Assignment.id).Nodup)
    (hr : generateSchedule cfg h slots as = Except.ok r) :
    ∀ a ∈ as,
      (0 ≤ a.required_hours →
        sumDurFor a.id r.study_sessions ≤ a.required_hours) ∧
      (a.id ∈ r.covered_ids →
        sumDurFor a.id r.study_sessions = a.required_hours) := by
  obtain ⟨_, rfl⟩ := generateSchedule_ok_inv hr
  intro a ha
  by_cases hproc : a.is_completed = false ∧ eligible h a
  · obtain ⟨rem, hrem0, hsum, hcov, _⟩ := assemble_cov hmax hn a ha hproc.1 hproc.2
    constructor
    · intro _
      linarith
    · intro hid
      have := hcov.mp hid
      linarith
  · have hskip : a.is_completed = true ∨ ¬eligible h a := by
      rcases not_and_or.mp hproc with h1 | h2
      · exact Or.inl (by simpa using h1)
      · exact Or.inr h2
    obtain ⟨hnos, hncov, _⟩ := assemble_skip hmax hn a ha hskip
    have hzero : sumDurFor a.id (assemble cfg h slots as).study_sessions = 0 :=
      sumDurFor_none hnos
    rw [hzero]
    exact ⟨fun h0 => h0, fun hid => absurd hid hncov⟩

theorem C4_witness :
    sumDurFor 1 (assemble cfgW hW slotsW asW).study_sessions ≤ 4 :=
  (C4_coverage_sums (by decide) (by decide) (generateSchedule_eq_ok (by decide))
    ⟨1, 48, Difficulty.medium, TaskPriority.high, 4, false⟩
    (by decide)).1 (by decide)

/-- C5: the result is an ordered session list plus a summary: the total hours
equal the sum of session durations; an assignment is reported covered exactly
when its allocated hours reach the required hours; the uncovered list pairs
each shortfall assignment id with exactly its remaining hours, and every
uncovered entry belongs to an input assignment with a positive shortfall. -/
theorem C5_result_contract {cfg : Config} {h : Horizon}
    {slots : List AvailabilitySlot} {as : List Assignment} {r : ScheduleResult}
    (hmax : 0 < cfg.maxSessionLength) (hn : (as.map Assignment.id).Nodup)
    (hr : generateSchedule cfg h slots as = Except.ok r) :
    r.total_hours_scheduled = (r.study_sessions.map Session.duration).sum ∧
    r.study_sessions.Pairwise chronLE ∧
    (∀ a ∈ as, a.is_completed = false → eligible h a →
      (a.id ∈ r.covered_ids ↔
        sumDurFor a.id r.study_sessions = a.required_hours) ∧
      ∀ x, ((a.id, x) ∈ r.uncovered ↔
        (sumDurFor a.id r.study_sessions < a.required_hours ∧
          x = a.required_hours - sumDurFor a.id r.study_sessions))) ∧
    (∀ p ∈ r.uncovered, ∃ a ∈ as, p.1 = a.id ∧
      p.2 = a.required_hours - sumDurFor a.id r.study_sessions ∧ 0 < p.2) := by
  obtain ⟨_, rfl⟩ := generateSchedule_ok_inv hr
  refine ⟨assemble_total_def cfg h slots as, ?_, ?_, ?_⟩
  · refine (assemble_pairwise hmax).imp_of_mem ?_
    intro s t hs _ hst
    obtain ⟨_, _, hdp, _⟩ := assemble_sessions hmax s hs
    unfold Session.duration at hdp
    unfold chronLE
    unfold sessBefore at hst
    linarith
  · intro a ha hcomp hel
    obtain ⟨rem, hrem0, hsum, hcov, hunc⟩ := assemble_cov hmax hn a ha hcomp hel
    constructor
    · rw [hcov]
      constructor
      · intro hz
        linarith
      · intro hz
        linarith
    · intro x
      rw [hunc x]
      constructor
      · rintro ⟨h1, rfl⟩
        exact ⟨by linarith, by linarith⟩
      · rintro ⟨h1, rfl⟩
        exact ⟨by linarith, by linarith⟩
  · intro p hp
    obtain ⟨a, ha, _, _, h3, h4, h5⟩ := assemble_uncovered_entries hmax hn p hp
    exact ⟨a, ha, h3, h4, h5⟩

theorem C5_witness :
    (assemble cfgW hW slotsW asW).total_hours_scheduled =
      ((assemble cfgW hW slotsW asW).study_sessions.map Session.duration).sum ∧
    (assemble cfgW hW slotsW asW).study_sessions.Pairwise chronLE :=
  ⟨(C5_result_contract (by decide) (by decide)
      (generateSchedule_eq_ok (by decide))).1,
    (C5_result_contract (by decide) (by decide)
      (generateSchedule_eq_ok (by decide))).2.1⟩

/-- C6: a caller-visible error is produced exactly when the horizon satisfies
end ≤ start; for a valid horizon generation always returns a result, and with
zero availability slots the result is an empty schedule in which every
processed assignment is reported uncovered with its full required hours. -/
theorem C6_error_handling {cfg : Config} {h : Horizon}
    {slots : List AvailabilitySlot} {as : List Assignment} :
    ((∃ e, generateSchedule cfg h slots as = Except.error e) ↔ h.stop ≤ h.start) ∧
    (h.start < h.stop → ∃ r, generateSchedule cfg h slots as = Except.ok r ∧
      (slots = [] → r.study_sessions = [] ∧ r.covered_ids = [] ∧
        ∀ a ∈ as, a.is_completed = false → eligible h a →
          (a.id, a.required_hours) ∈ r.uncovered)) := by
  constructor
  · constructor
    · rintro ⟨e, he⟩
      unfold generateSchedule at he
      by_cases hh : h.stop ≤ h.start
      · exact hh
      · rw [if_neg hh] at he
        exact absurd he (by simp)
    · intro hh
      refine ⟨"invalid horizon: end <= start", ?_⟩
      unfold generateSchedule
      rw [if_pos hh]
  · intro hh
    refine ⟨assemble cfg h slots as, generateSchedule_eq_ok hh, ?_⟩
    rintro rfl
    have hentry_pos : ∀ e ∈ (allocAll cfg h (priorityScorer h.start as) []).2.1,
        0 < e.remaining := by
      intro e he
      obtain ⟨a', _, hel', _, hreq', _⟩ := allocAll_cov _ _ e he
      have hre := (@allocAll_nil_struct cfg h (priorityScorer h.start as)).2 e he
      rw [hre, hreq']
      rcases not_or.mp hel' with ⟨h1, _⟩
      exact not_le.mp h1
    refine ⟨?_, ?_, ?_⟩
    · rw [assemble_sessions_def, buildIndex_nil,
        (@allocAll_nil_struct cfg h (priorityScorer h.start as)).1]
      rfl
    · rw [assemble_covered_def, buildIndex_nil]
      have hfil : ((allocAll cfg h (priorityScorer h.start as) []).2.1.filter
          (fun c => decide (c.remaining = 0))) = [] := by
        apply List.filter_eq_nil_iff.mpr
        intro e he
        simp only [decide_eq_true_eq]
        have := hentry_pos e he
        linarith
      rw [hfil]
      rfl
    · intro a ha hcomp hel
      have hmem : a ∈ priorityScorer h.start as := priorityScorer_mem.mpr ⟨ha, hcomp⟩
      have hentry := @allocAll_nil_entry cfg h (priorityScorer h.start as) a hmem hel
      rw [assemble_uncovered_def, buildIndex_nil]
      apply List.mem_map.mpr
      refine ⟨⟨a.id, a.required_hours, a.required_hours⟩, ?_, rfl⟩
      apply List.mem_filter.mpr
      refine ⟨hentry, ?_⟩
      simp only [decide_eq_true_eq]
      rcases not_or.mp hel with ⟨h1, _⟩
      exact not_le.mp h1

theorem C6_witness :
    ∃ r, generateSchedule cfgW hW [] asW = Except.ok r ∧
      ([] = ([] : List AvailabilitySlot) → r.study_sessions = [] ∧
        r.covered_ids = [] ∧
        ∀ a ∈ asW, a.is_completed = false → eligible hW a →
          (a.id, a.required_hours) ∈ r.uncovered) :=
  C6_error_handling.2 (by decide)

/-- C7: the PriorityScorer returns exactly the non-completed assignments,
sorted descending by score with ties broken by earlier due date and then by
lower assignment id; as a pure function it is deterministic on its inputs. -/
theorem C7_priority_scorer (now : ℚ) (l : List Assignment) :
    (priorityScorer now l).Perm (l.filter (fun a => !a.is_completed)) ∧
    (∀ a ∈ priorityScorer now l, a ∈ l ∧ a.is_completed = false) ∧
    (priorityScorer now l).Pairwise (fun a b =>
      priorityScore now b < priorityScore now a ∨
        (priorityScore now a = priorityScore now b ∧
          (a.due_date < b.due_date ∨ (a.due_date = b.due_date ∧ a.id ≤ b.id)))) ∧
    priorityScorer now l = priorityScorer now l := by
  refine ⟨priorityScorer_perm now l, ?_, ?_, rfl⟩
  · intro a ha
    exact priorityScorer_mem.mp ha
  · show (priorityScorer now l).Pairwise (scoreLE now)
    exact priorityScorer_sorted now l

/-- C8: an assignment with non-positive required hours, or a due date before
the horizon start, is skipped entirely: it gets no sessions, appears in
neither the covered nor the uncovered reporting, and generation succeeds. -/
theorem C8_skip_invalid {cfg : Config} {h : Horizon}
    {slots : List AvailabilitySlot} {as : List Assignment}
    (hmax : 0 < cfg.maxSessionLength) (hn : (as.map Assignment.id).Nodup)
    (hh : h.start < h.stop) :
    ∃ r, generateSchedule cfg h slots as = Except.ok r ∧
      ∀ a ∈ as, (a.required_hours ≤ 0 ∨ a.due_date < h.start) →
        (∀ s ∈ r.study_sessions, s.assignment_id ≠ a.id) ∧
        a.id ∉ r.covered_ids ∧ ∀ p ∈ r.uncovered, p.1 ≠ a.id := by
  refine ⟨assemble cfg h slots as, generateSchedule_eq_ok hh, ?_⟩
  intro a ha hcond
  exact assemble_skip hmax hn a ha (Or.inr (fun hel => hel hcond))

theorem C8_witness :
    ∃ r, generateSchedule cfgW hW slotsW
        [⟨2, 48, Difficulty.easy, TaskPriority.low, -1, false⟩] = Except.ok r ∧
      ∀ a ∈ [(⟨2, 48, Difficulty.easy, TaskPriority.low, -1, false⟩ : Assignment)],
        (a.required_hours ≤ 0 ∨ a.due_date < hW.start) →
        (∀ s ∈ r.study_sessions, s.assignment_id ≠ a.id) ∧
        a.id ∉ r.covered_ids ∧ ∀ p ∈ r.uncovered, p.1 ≠ a.id :=
  C8_skip_invalid (by decide) (by decide) (by decide)

/-- C9: on a chronological, non-overlapping draft list the ClusterOptimizer
only merges: the covered (time, assignment) set is unchanged, the output is
still chronological and non-overlapping, every output start and end time is
an existing start/end of the same assignment (so no interval is reassigned,
added, dropped, or extended, and due-date bounds persist), and per-assignment
allocated hours are unchanged. -/
theorem C9_cluster_optimizer {q : ℚ} {l : List Session}
    (hpos : ∀ u ∈ l, 0 < u.duration) (hchr : l.Pairwise sessBefore) :
    (∀ aid t, covers (clusterOptimize q l) aid t ↔ covers l aid t) ∧
    (clusterOptimize q l).Pairwise sessBefore ∧
    (∀ u ∈ clusterOptimize q l, ∃ w ∈ l, u.assignment_id = w.assignment_id ∧
      u.end_time = w.end_time) ∧
    (∀ u ∈ clusterOptimize q l, ∃ w ∈ l, u.assignment_id = w.assignment_id ∧
      u.start_time = w.start_time) ∧
    (∀ aid, sumDurFor aid (clusterOptimize q l) = sumDurFor aid l) := by
  refine ⟨?_, clusterOptimize_pairwise hchr, clusterOptimize_ends,
    clusterOptimize_starts, ?_⟩
  · intro aid t
    exact clusterOptimize_covers hpos
  · intro aid
    exact clusterOptimize_sumDur

theorem C9_witness :
    (clusterOptimize 2 [⟨1, 0, 1⟩, ⟨1, 1, 2⟩]).Pairwise sessBefore :=
  (C9_cluster_optimizer
    (by
      intro u hu
      fin_cases hu <;> norm_num [Session.duration])
    (by norm_num [List.pairwise_cons, sessBefore])).2.1

/-- C10: at the availability interface, day_of_week is Monday-first: the
engine's weekly expansion places a slot with day_of_week d on the day whose
Monday-first index is d, matching element d of the frontend's `dayNames`
list; the mock data's annotated weekdays (Tuesday/Thursday/Saturday for days
1/3/5) agree with this mapping. -/
theorem C10_monday_first :
    (∀ (w : Nat) (s : AvailabilitySlot), s.day_of_week < 7 → 0 ≤ s.start_time →
      s.start_time < 24 → dayIndexOf (slotInterval w s).lo = s.day_of_week) ∧
    mockAvailabilitySlots.map (fun s => dayNames.getD s.day_of_week ("")) =
      ["Tuesday", "Thursday", "Saturday"] := by
  constructor
  · intro w s hday h0 h24
    show (⌊(168 * (w : ℚ) + 24 * (s.day_of_week : ℚ) + s.start_time) / 24⌋) % 7 =
      (s.day_of_week : ℤ)
    have hfloor : ⌊(168 * (w : ℚ) + 24 * (s.day_of_week : ℚ) + s.start_time) / 24⌋ =
        7 * (w : ℤ) + (s.day_of_week : ℤ) := by
      rw [Int.floor_eq_iff]
      constructor
      · rw [le_div_iff₀ (by norm_num : (0:ℚ) < 24)]
        push_cast
        linarith
      · rw [div_lt_iff₀ (by norm_num : (0:ℚ) < 24)]
        push_cast
        linarith
    rw [hfloor]
    have hd : (s.day_of_week : ℤ) < 7 := by exact_mod_cast hday
    have hd0 : (0 : ℤ) ≤ (s.day_of_week : ℤ) := by exact_mod_cast Nat.zero_le _
    omega
  · rfl

theorem C10_witness :
    dayIndexOf (slotInterval 0 ⟨1, 9, 12⟩).lo = ((1 : Nat) : Int) :=
  C10_monday_first.1 0 ⟨1, 9, 12⟩ (by norm_num) (by norm_num) (by norm_num)

end Aptora
